import Mathlib

/-
  Verification of the DrCr reporting engine (thinlines/DrCr).

  Shallow embedding of the reporting calculator, executor, dynamic builders and
  the calculated-report model, translated from the Rust sources:
    - src/src/reporting/calculator.rs   (dependency graph, scheduler)
    - src/src/reporting/types.rs        (ids, args, step trait, context)
    - src/src/reporting/builders.rs     (dynamic step builders)
    - src/src/reporting/executor.rs     (execution sanity checks)
    - src/src/reporting/dynamic_report.rs and
      src/libdrcr/src/reporting/dynamic_report.rs (calculated report model)

  Rust NaiveDate values are modelled as integers (days); `pred_opt().unwrap()`
  becomes integer predecessor.  Trait objects `Box<dyn ReportingStepArgs>` form
  a closed family in the source (VoidArgs, DateArgs, DateStartDateEndArgs,
  MultipleDateArgs, MultipleDateStartDateEndArgs) and are modelled as an
  inductive type; `dyn_eq` structural equality across variants is exactly the
  derived decidable equality.
-/

/-- ReportingProductKind (types.rs / mod.rs): the closed enumeration of product
shapes. -/
inductive ReportingProductKind where
  | transactions
  | balancesAt
  | balancesBetween
  | generic
deriving DecidableEq, Repr

/-- The closed family of ReportingStepArgs implementations (types.rs):
VoidArgs, DateArgs, DateStartDateEndArgs, MultipleDateArgs,
MultipleDateStartDateEndArgs.  Dates are modelled as integers. -/
inductive StepArgs where
  | voidArgs
  | dateArgs (date : Int)
  | dateStartDateEndArgs (dateStart dateEnd : Int)
  | multipleDateArgs (dates : List Int)
  | multipleDateStartDateEndArgs (dates : List (Int × Int))
deriving DecidableEq, Repr

/-- ReportingProductId (types.rs): `{name, kind, args}`. -/
structure ReportingProductId where
  name : String
  kind : ReportingProductKind
  args : StepArgs
deriving DecidableEq, Repr

/-- ReportingStepId (types.rs): `{name, product_kinds, args}`. -/
structure ReportingStepId where
  name : String
  productKinds : List ReportingProductKind
  args : StepArgs
deriving DecidableEq, Repr

/-- A reporting step as seen by the calculator: its id data plus the static
requirement list `requires()`.  (`Box<dyn ReportingStep>` trait objects expose
`id()` and `requires(ctx)` to the code verified here.) -/
structure RStep where
  name : String
  productKinds : List ReportingProductKind
  args : StepArgs
  requires : List ReportingProductId
deriving DecidableEq, Repr

/-- ReportingStep::id (the id of a step instance). -/
def RStep.id (s : RStep) : ReportingStepId :=
  { name := s.name, productKinds := s.productKinds, args := s.args }

/-- Dependency (calculator.rs): `{step: ReportingStepId, dependency: ReportingProductId}`. -/
structure Dependency where
  step : ReportingStepId
  dependency : ReportingProductId
deriving DecidableEq, Repr

/-- ReportingCalculationError (calculator.rs). -/
inductive ReportingCalculationError where
  | unknownStep
  | noStepForProduct
  | circularDependencies
deriving DecidableEq, Repr

/-- The test, used throughout calculator.rs, that a step `s` produces the
product `p`: same name, same args, and the step's declared kind-set contains
the product's kind. -/
def producesMatch (s : RStep) (p : ReportingProductId) : Bool :=
  s.id.name == p.name && s.id.args == p.args && s.id.productKinds.contains p.kind

/-- would_be_ready_to_execute (calculator.rs lines 128-163): a step is ready
given the prefix `previous` (indices into `steps`) iff every dependency edge
whose step equals it is produced by some step of the prefix. -/
def wouldBeReadyToExecute (step : RStep) (steps : List RStep)
    (dependencies : List Dependency) (previous : List Nat) : Bool :=
  dependencies.all fun d =>
    if d.step == step.id then
      previous.any fun p =>
        match steps[p]? with
        | some s => producesMatch s d.dependency
        | none => false
    else
      true

/-- The inner `for` loop of the sort phase of solve_for (calculator.rs lines
296-301): scan `remaining` in order for the first step that would be ready to
execute; return it together with the list with that entry removed. -/
def pickFirstReady (steps : List RStep) (dependencies : List Dependency)
    (sorted : List Nat) :
    List (Nat × RStep) → Option ((Nat × RStep) × List (Nat × RStep))
  | [] => none
  | e :: rest =>
    if wouldBeReadyToExecute e.2 steps dependencies sorted then
      some (e, rest)
    else
      match pickFirstReady steps dependencies sorted rest with
      | some (c, rest') => some (c, e :: rest')
      | none => none

theorem pickFirstReady_perm {steps : List RStep} {dependencies : List Dependency}
    {sorted : List Nat} :
    ∀ {l : List (Nat × RStep)} {c : Nat × RStep} {rest : List (Nat × RStep)},
    pickFirstReady steps dependencies sorted l = some (c, rest) →
    l.Perm (c :: rest) := by
  intro l
  induction l with
  | nil => intro c rest h; simp [pickFirstReady] at h
  | cons e tl ih =>
    intro c rest h
    by_cases hr : wouldBeReadyToExecute e.2 steps dependencies sorted = true
    · simp [pickFirstReady, hr] at h
      obtain ⟨h1, h2⟩ := h
      subst h1; subst h2
      exact List.Perm.refl _
    · simp only [pickFirstReady, if_neg hr] at h
      cases htl : pickFirstReady steps dependencies sorted tl with
      | none => rw [htl] at h; simp at h
      | some p =>
        obtain ⟨c', rest'⟩ := p
        rw [htl] at h
        simp at h
        obtain ⟨h1, h2⟩ := h
        subst h1; subst h2
        exact ((ih htl).cons e).trans (List.Perm.swap c' e rest')

theorem pickFirstReady_ready {steps : List RStep} {dependencies : List Dependency}
    {sorted : List Nat} :
    ∀ {l : List (Nat × RStep)} {c : Nat × RStep} {rest : List (Nat × RStep)},
    pickFirstReady steps dependencies sorted l = some (c, rest) →
    wouldBeReadyToExecute c.2 steps dependencies sorted = true := by
  intro l
  induction l with
  | nil => intro c rest h; simp [pickFirstReady] at h
  | cons e tl ih =>
    intro c rest h
    by_cases hr : wouldBeReadyToExecute e.2 steps dependencies sorted = true
    · simp [pickFirstReady, hr] at h
      obtain ⟨h1, _⟩ := h
      subst h1; exact hr
    · simp only [pickFirstReady, if_neg hr] at h
      cases htl : pickFirstReady steps dependencies sorted tl with
      | none => rw [htl] at h; simp at h
      | some p =>
        obtain ⟨c', rest'⟩ := p
        rw [htl] at h
        simp at h
        obtain ⟨h1, _⟩ := h
        subst h1
        exact ih htl

theorem pickFirstReady_none {steps : List RStep} {dependencies : List Dependency}
    {sorted : List Nat} :
    ∀ {l : List (Nat × RStep)},
    pickFirstReady steps dependencies sorted l = none →
    ∀ p ∈ l, wouldBeReadyToExecute p.2 steps dependencies sorted = false := by
  intro l
  induction l with
  | nil => intro _ p hp; simp at hp
  | cons e tl ih =>
    intro h p hp
    by_cases hr : wouldBeReadyToExecute e.2 steps dependencies sorted = true
    · simp [pickFirstReady, hr] at h
    · simp only [pickFirstReady, if_neg hr] at h
      cases htl : pickFirstReady steps dependencies sorted tl with
      | none =>
        rcases List.mem_cons.mp hp with h1 | h1
        · subst h1; exact Bool.eq_false_iff.mpr hr
        · exact ih htl p h1
      | some c =>
        obtain ⟨c', rest'⟩ := c
        rw [htl] at h
        simp at h

theorem pickFirstReady_length {steps : List RStep} {dependencies : List Dependency}
    {sorted : List Nat} {l : List (Nat × RStep)} {c : Nat × RStep}
    {rest : List (Nat × RStep)}
    (h : pickFirstReady steps dependencies sorted l = some (c, rest)) :
    rest.length < l.length := by
  have hp := pickFirstReady_perm h
  have := hp.length_eq
  simp at this
  omega

/-- The `'loop_until_all_sorted` loop of solve_for (calculator.rs lines
295-306): repeatedly append the first ready step's original index to the
execution order and drop it from the remaining list; fail with
CircularDependencies as soon as no remaining step is ready. -/
def sortLoop (steps : List RStep) (dependencies : List Dependency) :
    List (Nat × RStep) → List Nat →
    Except ReportingCalculationError (List Nat)
  | [], sorted => .ok sorted
  | e :: rest, sorted =>
    match h : pickFirstReady steps dependencies sorted (e :: rest) with
    | some (c, rest') => sortLoop steps dependencies rest' (sorted ++ [c.1])
    | none => .error .circularDependencies
termination_by remaining _ => remaining.length
decreasing_by exact pickFirstReady_length h

/-- The write loop `for i in 0..len { sort_mapping[sorted_step_indexes[i]] = i }`
(calculator.rs lines 309-311), with `i` starting from `start`. -/
def writeMapping (acc : List Nat) (start : Nat) : List Nat → List Nat
  | [] => acc
  | oi :: rest => writeMapping (acc.set oi start) (start + 1) rest

/-- sort_mapping (calculator.rs lines 308-311): the inverse permutation of
`sorted_step_indexes`, built by indexed writes into a zero vector. -/
def buildSortMapping (sortedIdx : List Nat) : List Nat :=
  writeMapping (List.replicate sortedIdx.length 0) 0 sortedIdx

/-- The sort phase of solve_for (calculator.rs lines 291-321): it receives the
resolved step list and dependency graph, topologically sorts the steps
(detecting cycles), and returns the steps permuted into execution order via
sort_mapping and a sort by key. -/
def solveForSort (steps : List RStep) (dependencies : List Dependency) :
    Except ReportingCalculationError (List RStep) :=
  match sortLoop steps dependencies steps.enum [] with
  | .error e => .error e
  | .ok sortedIdx =>
    let sortMapping := buildSortMapping sortedIdx
    .ok (((steps.zip sortMapping).mergeSort
      (fun a b => decide (a.2 ≤ b.2))).map Prod.fst)

/-- The dependency-satisfaction check of solve_for (calculator.rs lines
267-289), run before the sort phase: every edge's step must be implemented and
every edge's product must be produced by some step. -/
def checkAllDependenciesSatisfied (steps : List RStep)
    (dependencies : List Dependency) : Except ReportingCalculationError Unit :=
  match dependencies.find? (fun d => !(steps.any fun s => s.id == d.step)) with
  | some _ => .error .unknownStep
  | none =>
    match dependencies.find?
        (fun d => !(steps.any fun s => producesMatch s d.dependency)) with
    | some _ => .error .noStepForProduct
    | none => .ok ()

-- -------------------------------------------------------------------------
-- Scheduler correctness infrastructure

/-- The steps selected, in order, by a list of indices into `steps`. -/
def selectSteps (steps : List RStep) (idxs : List Nat) : List RStep :=
  idxs.filterMap fun j => steps[j]?

/-- A schedule (list of indices into `steps`) is valid when each scheduled
step would be ready to execute given the prefix scheduled before it. -/
def ScheduleValid (steps : List RStep) (dependencies : List Dependency)
    (A : List Nat) : Prop :=
  ∀ k (hk : k < A.length), ∃ s, steps[A[k]]? = some s ∧
    wouldBeReadyToExecute s steps dependencies (A.take k) = true

/-- Invariant of the sort loop of solve_for. -/
def SortInv (steps : List RStep) (dependencies : List Dependency)
    (remaining : List (Nat × RStep)) (sorted : List Nat) : Prop :=
  (∀ p ∈ remaining, steps[p.1]? = some p.2) ∧
  (sorted ++ remaining.map Prod.fst).Nodup ∧
  (∀ x ∈ sorted ++ remaining.map Prod.fst, x < steps.length) ∧
  sorted.length + remaining.length = steps.length ∧
  ScheduleValid steps dependencies sorted

theorem sortInv_step {steps : List RStep} {dependencies : List Dependency}
    {remaining : List (Nat × RStep)} {sorted : List Nat}
    {c : Nat × RStep} {rest' : List (Nat × RStep)}
    (hinv : SortInv steps dependencies remaining sorted)
    (hpick : pickFirstReady steps dependencies sorted remaining = some (c, rest')) :
    SortInv steps dependencies rest' (sorted ++ [c.1]) := by
  obtain ⟨hassoc, hnd, hbound, hlen, hvalid⟩ := hinv
  have hperm := pickFirstReady_perm hpick
  have hpermf : (remaining.map Prod.fst).Perm (c.1 :: rest'.map Prod.fst) :=
    hperm.map Prod.fst
  have happperm : (sorted ++ remaining.map Prod.fst).Perm
      ((sorted ++ [c.1]) ++ rest'.map Prod.fst) := by
    refine (List.Perm.append_left sorted hpermf).trans ?_
    rw [List.append_assoc]
    exact List.Perm.refl _
  have hcmem : c ∈ remaining := hperm.mem_iff.mpr (List.mem_cons_self _ _)
  refine ⟨?_, ?_, ?_, ?_, ?_⟩
  · intro p hp
    exact hassoc p (hperm.mem_iff.mpr (List.mem_cons_of_mem _ hp))
  · exact happperm.nodup_iff.mp hnd
  · intro x hx
    exact hbound x (happperm.mem_iff.mpr hx)
  · have := hperm.length_eq
    simp only [List.length_cons] at this
    simp only [List.length_append, List.length_singleton]
    omega
  · intro k hk
    simp only [List.length_append, List.length_singleton] at hk
    rcases Nat.lt_or_ge k sorted.length with hks | hks
    · obtain ⟨s, hs, hready⟩ := hvalid k hks
      refine ⟨s, ?_, ?_⟩
      · rwa [List.getElem_append_left hks]
      · rwa [List.take_append_of_le_length (Nat.le_of_lt hks)]
    · have hkeq : k = sorted.length := by omega
      subst hkeq
      have hel : (sorted ++ [c.1])[sorted.length] = c.1 := by
        rw [List.getElem_append_right (Nat.le_refl _)]
        simp
      refine ⟨c.2, ?_, ?_⟩
      · rw [hel]; exact hassoc c hcmem
      · rw [List.take_left]
        exact pickFirstReady_ready hpick

theorem sortLoop_ok_properties {steps : List RStep} {dependencies : List Dependency} :
    ∀ (n : Nat) (remaining : List (Nat × RStep)) (sorted : List Nat),
    remaining.length = n →
    SortInv steps dependencies remaining sorted →
    ∀ {A : List Nat},
    sortLoop steps dependencies remaining sorted = .ok A →
    ScheduleValid steps dependencies A ∧ A.Nodup ∧
      A.length = steps.length ∧ ∀ x ∈ A, x < steps.length := by
  intro n
  induction n using Nat.strong_induction_on with
  | _ n ih =>
    intro remaining sorted hn hinv A hok
    match remaining, hn with
    | [], _ =>
      simp only [sortLoop] at hok
      obtain ⟨_, hnd, hbound, hlen, hvalid⟩ := hinv
      simp only [List.map_nil, List.append_nil, List.length_nil] at hnd hbound hlen
      cases hok
      exact ⟨hvalid, hnd, by omega, hbound⟩
    | e :: rest, hn =>
      rw [sortLoop] at hok
      split at hok
      next c rest' hpick =>
        have hlt : rest'.length < (e :: rest).length := pickFirstReady_length hpick
        exact ih rest'.length (by omega) rest' (sorted ++ [c.1]) rfl
          (sortInv_step hinv hpick) hok
      next => exact absurd hok (by simp)

theorem sortInv_initial (steps : List RStep) (dependencies : List Dependency) :
    SortInv steps dependencies steps.enum [] := by
  refine ⟨?_, ?_, ?_, ?_, ?_⟩
  · intro p hp
    obtain ⟨i, hi, hp⟩ := List.mem_iff_getElem.mp hp
    rw [List.getElem_enum] at hp
    subst hp
    exact List.getElem?_eq_getElem (by simpa [List.enum_length] using hi)
  · simpa [List.enum_map_fst] using List.nodup_range steps.length
  · intro x hx
    simp only [List.nil_append, List.enum_map_fst, List.mem_range] at hx
    exact hx
  · simp [List.enum_length]
  · intro k hk; simp at hk

-- -------------------------------------------------------------------------
-- The permutation applied after the sort loop (sort_mapping + sort-by-key)

theorem writeMapping_length (acc : List Nat) (start : Nat) :
    ∀ l : List Nat, (writeMapping acc start l).length = acc.length := by
  intro l
  induction l generalizing acc start with
  | nil => rfl
  | cons x rest ih => simp [writeMapping, ih, List.length_set]

theorem writeMapping_getElem?_of_not_mem {j : Nat} :
    ∀ {l : List Nat} {acc : List Nat} {start : Nat}, j ∉ l →
    (writeMapping acc start l)[j]? = acc[j]? := by
  intro l
  induction l with
  | nil => intro acc start _; rfl
  | cons x rest ih =>
    intro acc start hj
    have hx : x ≠ j := fun h => hj (h ▸ List.mem_cons_self x rest)
    have hr : j ∉ rest := fun h => hj (List.mem_cons_of_mem _ h)
    rw [writeMapping, ih hr, List.getElem?_set, if_neg hx]

theorem writeMapping_getElem?_at {l : List Nat} (hnd : l.Nodup) :
    ∀ {acc : List Nat} {start : Nat} (k : Nat) (hk : k < l.length),
    l[k] < acc.length →
    (writeMapping acc start l)[l[k]]? = some (start + k) := by
  induction l with
  | nil => intro acc start k hk; simp at hk
  | cons x rest ih =>
    intro acc start k hk hb
    match k with
    | 0 =>
      simp only [List.getElem_cons_zero] at hb ⊢
      have hx : x ∉ rest := (List.nodup_cons.mp hnd).1
      rw [writeMapping, writeMapping_getElem?_of_not_mem hx,
        List.getElem?_set, if_pos rfl, if_pos hb, Nat.add_zero]
    | k + 1 =>
      simp only [List.getElem_cons_succ] at hb ⊢
      have hk' : k < rest.length := by simpa using hk
      have := @ih (List.nodup_cons.mp hnd).2 (acc.set x start)
        (start + 1) k hk' (by simpa [List.length_set] using hb)
      rw [writeMapping]
      rw [this]
      congr 1
      omega

theorem buildSortMapping_length (A : List Nat) :
    (buildSortMapping A).length = A.length := by
  simp [buildSortMapping, writeMapping_length]

theorem buildSortMapping_at {A : List Nat} (hnd : A.Nodup)
    (hb : ∀ x ∈ A, x < A.length) (k : Nat) (hk : k < A.length) :
    (buildSortMapping A)[A[k]]? = some k := by
  have := @writeMapping_getElem?_at A hnd (List.replicate A.length 0)
    0 k hk (by simpa using hb _ (List.getElem_mem hk))
  simpa using this

theorem perm_range_of_nodup {A : List Nat} {n : Nat} (hnd : A.Nodup)
    (hb : ∀ x ∈ A, x < n) (hlen : A.length = n) :
    A.Perm (List.range n) := by
  have hsub : A ⊆ List.range n := fun x hx => List.mem_range.mpr (hb x hx)
  have hsp := hnd.subperm hsub
  exact hsp.perm_of_length_le (by simp [hlen])

theorem selectSteps_length {steps : List RStep} :
    ∀ {A : List Nat}, (∀ x ∈ A, x < steps.length) →
    (selectSteps steps A).length = A.length := by
  intro A
  induction A with
  | nil => intro _; rfl
  | cons x rest ih =>
    intro hb
    have hx : x < steps.length := hb x (List.mem_cons_self _ _)
    simp only [selectSteps, List.filterMap_cons,
      List.getElem?_eq_getElem hx]
    simpa [selectSteps] using ih fun y hy => hb y (List.mem_cons_of_mem _ hy)

theorem selectSteps_getElem {steps : List RStep} :
    ∀ {A : List Nat} (hb : ∀ x ∈ A, x < steps.length)
    (i : Nat) (hi : i < (selectSteps steps A).length) (hi' : i < A.length)
    (hAi : A[i] < steps.length),
    (selectSteps steps A)[i] = steps[A[i]] := by
  intro A
  induction A with
  | nil => intro _ i hi; simp [selectSteps] at hi
  | cons x rest ih =>
    intro hb i hi hi' hAi
    have hx : x < steps.length := hb x (List.mem_cons_self _ _)
    match i with
    | 0 =>
      simp only [List.getElem_cons_zero] at hAi ⊢
      simp [selectSteps, List.filterMap_cons, List.getElem?_eq_getElem hx]
    | i + 1 =>
      simp only [List.getElem_cons_succ] at hAi ⊢
      have hb' : ∀ y ∈ rest, y < steps.length :=
        fun y hy => hb y (List.mem_cons_of_mem _ hy)
      have hi2 : i < (selectSteps steps rest).length := by
        simp only [selectSteps, List.filterMap_cons,
          List.getElem?_eq_getElem hx, List.length_cons] at hi
        simpa [selectSteps] using hi
      have := ih hb' i hi2 (by simpa using hi') hAi
      simp only [selectSteps, List.filterMap_cons, List.getElem?_eq_getElem hx]
      simpa [selectSteps] using this

theorem buildSortMapping_nodup {A : List Nat}
    (hnd : A.Nodup) (hb : ∀ x ∈ A, x < A.length) :
    (buildSortMapping A).Nodup := by
  have hperm : A.Perm (List.range A.length) := perm_range_of_nodup hnd hb rfl
  have hinv : ∀ j, j < A.length → ∃ k, ∃ hk : k < A.length,
      A[k] = j ∧ (buildSortMapping A)[j]? = some k := by
    intro j hj
    have hjA : j ∈ A := hperm.mem_iff.mpr (List.mem_range.mpr hj)
    obtain ⟨k, hk, hAk⟩ := List.mem_iff_getElem.mp hjA
    exact ⟨k, hk, hAk, by rw [← hAk]; exact buildSortMapping_at hnd hb k hk⟩
  rw [List.nodup_iff_injective_get]
  intro ⟨j1, hj1⟩ ⟨j2, hj2⟩ hget
  simp only [List.get_eq_getElem] at hget
  rw [buildSortMapping_length] at hj1 hj2
  obtain ⟨k1, hk1, hA1, hm1⟩ := hinv j1 hj1
  obtain ⟨k2, hk2, hA2, hm2⟩ := hinv j2 hj2
  have e1 : (buildSortMapping A)[j1] = k1 := by
    have := List.getElem?_eq_getElem
      (l := buildSortMapping A) (n := j1) (by rwa [buildSortMapping_length])
    rw [this] at hm1; exact Option.some.inj hm1
  have e2 : (buildSortMapping A)[j2] = k2 := by
    have := List.getElem?_eq_getElem
      (l := buildSortMapping A) (n := j2) (by rwa [buildSortMapping_length])
    rw [this] at hm2; exact Option.some.inj hm2
  have : k1 = k2 := by rw [← e1, ← e2, hget]
  subst this
  simp only [Fin.mk_eq_mk]
  rw [← hA1, ← hA2]

/-- A placeholder step used only as a `getD` default inside proofs. -/
def dfltStep : RStep := { name := "", productKinds := [], args := .voidArgs, requires := [] }


theorem mergeSort_bridge {steps : List RStep} {A : List Nat}
    (hnd : A.Nodup) (hb : ∀ x ∈ A, x < steps.length)
    (hlen : A.length = steps.length) :
    ((steps.zip (buildSortMapping A)).mergeSort
        (fun a b => decide (a.2 ≤ b.2))).map Prod.fst
      = selectSteps steps A := by
  have hbA : ∀ x ∈ A, x < A.length := by rw [hlen]; exact hb
  have hmlen : (buildSortMapping A).length = steps.length := by
    rw [buildSortMapping_length, hlen]
  have hplen : (steps.zip (buildSortMapping A)).length = steps.length := by
    rw [List.length_zip, hmlen]; omega
  have hT_len : (selectSteps steps A).length = A.length := selectSteps_length hb
  have hmapA : ∀ k (hk : k < A.length), (buildSortMapping A)[A[k]]? = some k :=
    fun k hk => buildSortMapping_at hnd hbA k hk
  set g : Nat → RStep × Nat :=
    fun j => ((steps[j]?).getD dfltStep, ((buildSortMapping A)[j]?).getD 0) with hg
  have hpairs : steps.zip (buildSortMapping A) = (List.range steps.length).map g := by
    apply List.ext_getElem
    · simp [hplen]
    · intro k h1 h2
      have hkn : k < steps.length := by rwa [hplen] at h1
      have hkm : k < (buildSortMapping A).length := by omega
      rw [List.getElem_zip, List.getElem_map, List.getElem_range, hg]
      simp [List.getElem?_eq_getElem hkn, List.getElem?_eq_getElem hkm]
  have hR_len : ((selectSteps steps A).enum.map
      (fun p => (p.2, p.1))).length = A.length := by
    simp [List.enum_length, hT_len]
  have hR_at : ∀ i (hi : i < ((selectSteps steps A).enum.map
        (fun p => (p.2, p.1))).length) (hi2 : i < (selectSteps steps A).length),
      ((selectSteps steps A).enum.map (fun p => (p.2, p.1)))[i]
        = ((selectSteps steps A)[i], i) := by
    intro i hi hi2
    rw [List.getElem_map, List.getElem_enum]
  have hRg : (selectSteps steps A).enum.map (fun p => (p.2, p.1)) = A.map g := by
    apply List.ext_getElem
    · rw [hR_len]; simp
    · intro i h1 h2
      have hiA : i < A.length := by rwa [hR_len] at h1
      have hiT : i < (selectSteps steps A).length := by omega
      have hAi : A[i] < steps.length := hb _ (List.getElem_mem hiA)
      rw [hR_at i h1 hiT, List.getElem_map]
      have hsel := selectSteps_getElem hb i hiT hiA hAi
      simp only [hg]
      rw [List.getElem?_eq_getElem hAi, hmapA i hiA]
      simp [hsel]
  have hApermR : A.Perm (List.range steps.length) :=
    perm_range_of_nodup hnd hb hlen
  have hMSperm : ((steps.zip (buildSortMapping A)).mergeSort
      (fun a b => decide (a.2 ≤ b.2))).Perm
      ((selectSteps steps A).enum.map (fun p => (p.2, p.1))) := by
    refine (List.mergeSort_perm (steps.zip (buildSortMapping A))
      (fun a b => decide (a.2 ≤ b.2))).trans ?_
    rw [hpairs, hRg]
    exact (hApermR.map g).symm
  have hRsorted : List.Pairwise (fun a b : RStep × Nat => a.2 < b.2)
      ((selectSteps steps A).enum.map (fun p => (p.2, p.1))) := by
    rw [List.pairwise_iff_getElem]
    intro i j hi hj hij
    have hiT : i < (selectSteps steps A).length := by
      rw [hR_len] at hi; omega
    have hjT : j < (selectSteps steps A).length := by
      rw [hR_len] at hj; omega
    have e1 := congrArg Prod.snd (hR_at i hi hiT)
    have e2 := congrArg Prod.snd (hR_at j hj hjT)
    simp only [] at e1 e2
    show _ < _
    rw [e1, e2]
    exact hij
  have hMSle := @List.sorted_mergeSort (RStep × Nat)
    (fun a b => decide (a.2 ≤ b.2))
    (fun a b c h1 h2 => by
      simp only [decide_eq_true_eq] at h1 h2 ⊢
      omega)
    (fun a b => by
      simp only [Bool.or_eq_true, decide_eq_true_eq]
      omega)
    (steps.zip (buildSortMapping A))
  have hsndnd : (((steps.zip (buildSortMapping A)).mergeSort
      (fun a b => decide (a.2 ≤ b.2))).map Prod.snd).Nodup := by
    have hperm2 := (List.mergeSort_perm (steps.zip (buildSortMapping A))
      (fun a b => decide (a.2 ≤ b.2))).map Prod.snd
    rw [List.map_snd_zip _ _ (by omega)] at hperm2
    rw [hperm2.nodup_iff]
    exact buildSortMapping_nodup hnd hbA
  have hMSsorted : List.Pairwise (fun a b : RStep × Nat => a.2 < b.2)
      ((steps.zip (buildSortMapping A)).mergeSort
        (fun a b => decide (a.2 ≤ b.2))) := by
    rw [List.pairwise_iff_getElem] at hMSle ⊢
    intro i j hi hj hij
    have h1 := hMSle i j hi hj hij
    simp only [decide_eq_true_eq] at h1
    have hi2 : i < (((steps.zip (buildSortMapping A)).mergeSort
        (fun a b => decide (a.2 ≤ b.2))).map Prod.snd).length := by simpa using hi
    have hj2 : j < (((steps.zip (buildSortMapping A)).mergeSort
        (fun a b => decide (a.2 ≤ b.2))).map Prod.snd).length := by simpa using hj
    show _ < _
    rcases Nat.lt_or_ge (((steps.zip (buildSortMapping A)).mergeSort
        (fun a b => decide (a.2 ≤ b.2)))[i]).2 (((steps.zip
        (buildSortMapping A)).mergeSort (fun a b => decide (a.2 ≤ b.2)))[j]).2
      with hlt | hge
    · exact hlt
    · exfalso
      have heq2 : (((steps.zip (buildSortMapping A)).mergeSort
          (fun a b => decide (a.2 ≤ b.2)))[i]).2 = (((steps.zip
          (buildSortMapping A)).mergeSort (fun a b => decide (a.2 ≤ b.2)))[j]).2 := by
        omega
      have := (@List.Nodup.getElem_inj_iff _ _ hsndnd i hi2 j hj2).mp
        (by rw [List.getElem_map, List.getElem_map]; exact heq2)
      omega
  haveI : IsAntisymm (RStep × Nat) (fun a b => a.2 < b.2) :=
    ⟨fun a b h1 h2 => absurd (h1.trans h2) (lt_irrefl _)⟩
  have hEq : (steps.zip (buildSortMapping A)).mergeSort
      (fun a b => decide (a.2 ≤ b.2))
      = (selectSteps steps A).enum.map (fun p => (p.2, p.1)) :=
    List.eq_of_perm_of_sorted hMSperm hMSsorted hRsorted
  rw [hEq, List.map_map]
  have hcomp : (Prod.fst ∘ fun p : Nat × RStep => (p.2, p.1)) = Prod.snd := rfl
  rw [hcomp, List.enum_map_snd]

theorem solveForSort_out_shape {steps : List RStep} {dependencies : List Dependency}
    {out : List RStep}
    (hok : solveForSort steps dependencies = .ok out) :
    ∃ A : List Nat, sortLoop steps dependencies steps.enum [] = .ok A ∧
      ScheduleValid steps dependencies A ∧ A.Nodup ∧
      A.length = steps.length ∧ (∀ x ∈ A, x < steps.length) ∧
      out = selectSteps steps A := by
  unfold solveForSort at hok
  split at hok
  next e heq => exact absurd hok (by simp)
  next A heq =>
    obtain ⟨hvalid, hnodup, hlenA, hbound⟩ :=
      sortLoop_ok_properties steps.enum.length steps.enum [] rfl
        (sortInv_initial steps dependencies) heq
    refine ⟨A, heq, hvalid, hnodup, hlenA, hbound, ?_⟩
    simp only [Except.ok.injEq] at hok
    rw [← hok, mergeSort_bridge hnodup hbound hlenA]

/-- C1.  If the scheduler in solve_for succeeds, the returned step sequence is
a valid linear extension of the dependency graph: for every returned step and
every dependency edge whose step equals it, some step strictly earlier in the
sequence has the same name and args as the edge's product and a declared
kind-set containing the edge's product kind. -/
theorem solve_for_schedule_is_linear_extension
    {steps : List RStep} {dependencies : List Dependency} {out : List RStep}
    (hok : solveForSort steps dependencies = .ok out)
    (i : Nat) (hi : i < out.length) (e : Dependency) (he : e ∈ dependencies)
    (hstep : e.step = out[i].id) :
    ∃ j, ∃ hj : j < out.length, j < i ∧
      producesMatch (out.get ⟨j, hj⟩) e.dependency = true := by
  obtain ⟨A, _heq, hvalid, hnodup, hlenA, hbound, hout⟩ :=
    solveForSort_out_shape hok
  have hsellen : (selectSteps steps A).length = A.length :=
    selectSteps_length hbound
  have houtlen : out.length = A.length := by
    rw [hout]; exact selectSteps_length hbound
  have hiA : i < A.length := by omega
  have hAi : A[i] < steps.length := hbound _ (List.getElem_mem hiA)
  have houti : out[i] = steps[A[i]] := by
    have := selectSteps_getElem hbound i (by omega) hiA hAi
    conv_lhs => rw [List.getElem_of_eq hout hi]
    exact this
  obtain ⟨s, hs, hready⟩ := hvalid i hiA
  have hsval : s = steps[A[i]] := by
    rw [List.getElem?_eq_getElem hAi] at hs
    exact (Option.some.inj hs).symm
  have hid : e.step = s.id := by rw [hsval, ← houti]; exact hstep
  rw [wouldBeReadyToExecute, List.all_eq_true] at hready
  have hcond := hready e he
  rw [if_pos (by simp [hid])] at hcond
  rw [List.any_eq_true] at hcond
  obtain ⟨p, hpmem, hpmatch⟩ := hcond
  obtain ⟨j, hjt, hpj⟩ := List.mem_iff_getElem.mp hpmem
  have hjlen : j < A.length := by
    have := List.length_take i A
    omega
  have hji : j < i := by
    have := List.length_take i A
    omega
  have hpAj : p = A[j] := by
    rw [← hpj, List.getElem_take]
  have hAj : A[j] < steps.length := hbound _ (List.getElem_mem hjlen)
  rw [hpAj, List.getElem?_eq_getElem hAj] at hpmatch
  simp only [] at hpmatch
  have hjout : j < out.length := by omega
  refine ⟨j, hjout, hji, ?_⟩
  have houtj : out[j] = steps[A[j]] := by
    have := selectSteps_getElem hbound j (by omega) hjlen hAj
    conv_lhs => rw [List.getElem_of_eq hout hjout]
    exact this
  rw [List.get_eq_getElem, houtj]
  exact hpmatch

/-- A concrete two-step example: a transactions step and a report step
depending on its product. -/
def exStepB : RStep :=
  { name := "TransB", productKinds := [.transactions], args := .voidArgs,
    requires := [] }

def exStepA : RStep :=
  { name := "RepA", productKinds := [.generic], args := .voidArgs,
    requires := [] }

def exDepAB : Dependency :=
  { step := exStepA.id,
    dependency := { name := "TransB", kind := .transactions, args := .voidArgs } }

theorem solve_for_schedule_is_linear_extension_witness :
    ∃ j, ∃ hj : j < ([exStepB, exStepA] : List RStep).length, j < 1 ∧
      producesMatch (([exStepB, exStepA] : List RStep).get ⟨j, hj⟩)
        exDepAB.dependency = true := by
  have hok : solveForSort [exStepA, exStepB] [exDepAB] = .ok [exStepB, exStepA] := by
    have hsl : sortLoop [exStepA, exStepB] [exDepAB]
        (([exStepA, exStepB] : List RStep).enum) [] = .ok [1, 0] := by
      rw [show ([exStepA, exStepB] : List RStep).enum
        = [(0, exStepA), (1, exStepB)] by simp [List.enum, List.enumFrom]]
      rw [sortLoop]
      simp [pickFirstReady, wouldBeReadyToExecute, exStepA, exStepB, exDepAB,
        RStep.id, producesMatch, sortLoop]
    rw [solveForSort, hsl]
    simp [buildSortMapping, writeMapping, List.mergeSort, selectSteps]
  exact solve_for_schedule_is_linear_extension hok 1 (by simp) exDepAB
    (by simp) (by simp [exDepAB, exStepA, exStepB, RStep.id])

/-- Whether the step at index j of steps produces the product p (the per-index
form of the producer test of would_be_ready_to_execute). -/
def producesAt (steps : List RStep) (j : Nat) (p : ReportingProductId) : Bool :=
  match steps[j]? with
  | some s => producesMatch s p
  | none => false

/-- A certificate that the dependency graph has a cycle: a nonempty set C of
step indices such that every member has a dependency edge all of whose
producers lie in C.  (With every edge's product producible — which solve_for
validates before sorting — this is exactly the failure of topological
sortability, i.e. a dependency cycle.) -/
def CycleWitness (steps : List RStep) (dependencies : List Dependency)
    (C : List Nat) : Prop :=
  C ≠ [] ∧ (∀ i ∈ C, i < steps.length) ∧
  ∀ i ∈ C, ∃ e ∈ dependencies,
    steps[i]?.map RStep.id = some e.step ∧
    ∀ j < steps.length, producesAt steps j e.dependency = true → j ∈ C

theorem sortLoop_cycle {steps : List RStep} {dependencies : List Dependency}
    {C : List Nat} (hcw : CycleWitness steps dependencies C) :
    ∀ (n : Nat) (remaining : List (Nat × RStep)) (sorted : List Nat),
    remaining.length = n →
    SortInv steps dependencies remaining sorted →
    (∀ c ∈ C, c ∈ remaining.map Prod.fst) →
    sortLoop steps dependencies remaining sorted = .error .circularDependencies := by
  intro n
  induction n using Nat.strong_induction_on with
  | _ n ih =>
    intro remaining sorted hn hinv hC
    match remaining, hn with
    | [], _ =>
      obtain ⟨c, hc⟩ := List.exists_mem_of_ne_nil C hcw.1
      exact absurd (hC c hc) (by simp)
    | e :: rest, hn =>
      rw [sortLoop]
      split
      next c rest' hpick =>
        have hinv' := sortInv_step hinv hpick
        have hnotin : c.1 ∉ C := by
          intro hin
          obtain ⟨e0, he0mem, hid, hclosure⟩ := hcw.2.2 c.1 hin
          have hassoc := hinv.1 c (pickFirstReady_perm hpick |>.mem_iff.mpr
            (List.mem_cons_self _ _))
          rw [hassoc] at hid
          simp only [Option.map] at hid
          have hid' : e0.step = c.2.id := (Option.some.inj hid).symm
          have hready := pickFirstReady_ready hpick
          rw [wouldBeReadyToExecute, List.all_eq_true] at hready
          have hcond := hready e0 he0mem
          rw [if_pos (by simp [hid'])] at hcond
          rw [List.any_eq_true] at hcond
          obtain ⟨p, hpmem, hpmatch⟩ := hcond
          have hpbound : p < steps.length :=
            hinv.2.2.1 p (List.mem_append.mpr (Or.inl hpmem))
          have hpC : p ∈ C :=
            hclosure p hpbound (by rw [producesAt]; exact hpmatch)
          have hdisj := List.disjoint_of_nodup_append hinv.2.1
          exact hdisj hpmem (hC p hpC)
        have hCrest : ∀ c0 ∈ C, c0 ∈ rest'.map Prod.fst := by
          intro c0 hc0
          have := (pickFirstReady_perm hpick |>.map Prod.fst).mem_iff.mp
            (hC c0 hc0)
          simp only [List.map_cons, List.mem_cons] at this
          rcases this with h1 | h1
          · exact absurd (h1 ▸ hc0) hnotin
          · exact h1
        have hlt : rest'.length < (e :: rest).length := pickFirstReady_length hpick
        exact ih rest'.length (by omega) rest' (sorted ++ [c.1]) rfl hinv' hCrest
      next => rfl

/-- C2.  For every dependency graph containing a cycle (certified by a
CycleWitness, equivalently: during scheduling no unscheduled step ever becomes
ready while steps remain), the sort phase of solve_for returns the
CircularDependencies error, yielding no step ordering (the Except carries no
result, so no partial ordering and no products can be produced). -/
theorem solve_for_cycle_returns_circular_dependencies
    {steps : List RStep} {dependencies : List Dependency} {C : List Nat}
    (hcw : CycleWitness steps dependencies C) :
    solveForSort steps dependencies = .error .circularDependencies := by
  rw [solveForSort]
  have h := sortLoop_cycle hcw steps.enum.length steps.enum [] rfl
    (sortInv_initial steps dependencies) (fun c hc => by
      rw [List.enum_map_fst, List.mem_range]; exact hcw.2.1 c hc)
  rw [h]

/-- A concrete two-step cycle: each step requires the other's product. -/
def cycStepX : RStep :=
  { name := "X", productKinds := [.transactions], args := .voidArgs,
    requires := [] }

def cycStepY : RStep :=
  { name := "Y", productKinds := [.transactions], args := .voidArgs,
    requires := [] }

def cycDeps : List Dependency :=
  [ { step := cycStepX.id,
      dependency := { name := "Y", kind := .transactions, args := .voidArgs } },
    { step := cycStepY.id,
      dependency := { name := "X", kind := .transactions, args := .voidArgs } } ]

theorem solve_for_cycle_returns_circular_dependencies_witness :
    solveForSort [cycStepX, cycStepY] cycDeps = .error .circularDependencies := by
  refine solve_for_cycle_returns_circular_dependencies (C := [0, 1]) ?_
  refine ⟨by simp, by decide, ?_⟩
  decide

-- -------------------------------------------------------------------------
-- Dynamic builder registration (types.rs 88-99 / mod.rs 56-64), for C10

/-- The function-pointer pair of a dynamic builder is one of the four
implementations provided by builders.rs. -/
inductive BuilderKind where
  | generateBalances
  | updateBalancesBetween
  | updateBalancesAt
  | balancesAtToBalancesBetween
deriving DecidableEq, Repr

/-- ReportingStepDynamicBuilder (types.rs 118-136): a name plus the
(can_build, build) function-pointer pair. -/
structure ReportingStepDynamicBuilder where
  name : String
  impl : BuilderKind
deriving DecidableEq, Repr

/-- ReportingContext::register_dynamic_builder (types.rs 91-99, identical in
mod.rs 56-64): push the builder unless one with the same name is already
registered. -/
def registerDynamicBuilder (builders : List ReportingStepDynamicBuilder)
    (builder : ReportingStepDynamicBuilder) : List ReportingStepDynamicBuilder :=
  if builders.any (fun b => b.name == builder.name) then builders
  else builders ++ [builder]

theorem registerDynamicBuilder_nodup_names
    {builders : List ReportingStepDynamicBuilder}
    (builder : ReportingStepDynamicBuilder)
    (h : (builders.map (fun b => b.name)).Nodup) :
    ((registerDynamicBuilder builders builder).map (fun b => b.name)).Nodup := by
  rw [registerDynamicBuilder]
  split
  · exact h
  · next hany =>
    rw [List.map_append]
    simp only [List.map_cons, List.map_nil]
    rw [List.nodup_append]
    refine ⟨h, List.nodup_singleton _, ?_⟩
    intro x hx
    simp only [List.mem_singleton]
    intro hxeq
    subst hxeq
    obtain ⟨b, hb, hbn⟩ := List.mem_map.mp hx
    exact hany (List.any_eq_true.mpr ⟨b, hb, by simp [hbn]⟩)

/-- C10.  register_dynamic_builder is first-registration-wins keyed on the
builder name: registering a builder whose name is already present leaves the
registry unchanged; otherwise the builder is appended, preserving the order of
previously registered names; consequently a registry built from the empty one
of ReportingContext::new never contains two builders with the same name. -/
theorem register_dynamic_builder_first_registration_wins
    (builders : List ReportingStepDynamicBuilder)
    (builder : ReportingStepDynamicBuilder)
    (bs : List ReportingStepDynamicBuilder) :
    ((∃ b ∈ builders, b.name = builder.name) →
      registerDynamicBuilder builders builder = builders) ∧
    ((registerDynamicBuilder builders builder).map (fun b => b.name)
        = builders.map (fun b => b.name) ∨
      (registerDynamicBuilder builders builder).map (fun b => b.name)
        = builders.map (fun b => b.name) ++ [builder.name]) ∧
    ((builders.map (fun b => b.name)).Nodup →
      ((registerDynamicBuilder builders builder).map (fun b => b.name)).Nodup) ∧
    ((bs.foldl registerDynamicBuilder []).map (fun b => b.name)).Nodup := by
  refine ⟨?_, ?_, fun h => registerDynamicBuilder_nodup_names builder h, ?_⟩
  · intro ⟨b, hb, hbn⟩
    rw [registerDynamicBuilder, if_pos (List.any_eq_true.mpr ⟨b, hb, by simp [hbn]⟩)]
  · rw [registerDynamicBuilder]
    split
    · exact Or.inl rfl
    · right; rw [List.map_append]; rfl
  · have hgen : ∀ (l : List ReportingStepDynamicBuilder)
        (acc : List ReportingStepDynamicBuilder),
        (acc.map (fun b => b.name)).Nodup →
        ((l.foldl registerDynamicBuilder acc).map (fun b => b.name)).Nodup := by
      intro l
      induction l with
      | nil => intro acc h; exact h
      | cons x rest ih =>
        intro acc h
        exact ih _ (registerDynamicBuilder_nodup_names x h)
    exact hgen bs [] (by simp)

theorem register_dynamic_builder_first_registration_wins_witness :
    registerDynamicBuilder
        [⟨"GenerateBalances", .generateBalances⟩]
        ⟨"GenerateBalances", .updateBalancesAt⟩
      = [⟨"GenerateBalances", .generateBalances⟩] :=
  (register_dynamic_builder_first_registration_wins
      [⟨"GenerateBalances", .generateBalances⟩]
      ⟨"GenerateBalances", .updateBalancesAt⟩ []).1
    ⟨⟨"GenerateBalances", .generateBalances⟩, by simp, rfl⟩

-- -------------------------------------------------------------------------
-- Executor sanity checks (executor.rs 84-117), for C6

/-- ReportingExecutionError (executor.rs 28-31). -/
inductive ReportingExecutionError where
  | dependencyNotAvailable
deriving DecidableEq, Repr

/-- The violation tested by the sanity-check loop of execute_steps
(executor.rs 91-113): the returned product id's name differs from the step's,
or its kind is not among the step's declared kinds, or its args differ. -/
def productViolatesId (stepId : ReportingStepId)
    (productId : ReportingProductId) : Bool :=
  productId.name != stepId.name
    || !(stepId.productKinds.contains productId.kind)
    || productId.args != stepId.args

/-- Outcome of handling one completed step in execute_steps: a propagated
execution error (`let mut new_products = result?`), a panic from the
sanity-check loop (`panic!`, aborting the whole run), or insertion of the new
products into the shared store. -/
inductive StepCompletionOutcome where
  | propagatedError (e : ReportingExecutionError)
  | panicked
  | inserted (products : List ReportingProductId)
deriving DecidableEq, Repr

/-- The per-completion handling of execute_steps (executor.rs 84-117): first
propagate a step error, then panic on the first returned product id that is
inconsistent with the step's declared id, otherwise insert the products. -/
def handleCompletedStep (stepId : ReportingStepId)
    (result : Except ReportingExecutionError (List ReportingProductId)) :
    StepCompletionOutcome :=
  match result with
  | .error e => .propagatedError e
  | .ok newProducts =>
    if newProducts.any (fun p => productViolatesId stepId p) then .panicked
    else .inserted newProducts

/-- C6.  If any product returned by a completed step has a name different from
the step's id name, or a kind not contained in the step's declared kind-set,
or args different from the step's args, the executor panics (aborting the
run) — it never converts the mismatch into a recoverable execution error; and
under the precondition that every returned product matches the step's id, the
panic branch is unreachable and the products are inserted. -/
theorem executor_sanity_check_panics_on_mismatch
    (stepId : ReportingStepId) (ps : List ReportingProductId) :
    ((∃ p ∈ ps, p.name ≠ stepId.name ∨ p.kind ∉ stepId.productKinds ∨
        p.args ≠ stepId.args) →
      handleCompletedStep stepId (.ok ps) = .panicked) ∧
    (handleCompletedStep stepId (.ok ps) = .panicked →
      ∃ p ∈ ps, p.name ≠ stepId.name ∨ p.kind ∉ stepId.productKinds ∨
        p.args ≠ stepId.args) ∧
    ((∀ p ∈ ps, p.name = stepId.name ∧ p.kind ∈ stepId.productKinds ∧
        p.args = stepId.args) →
      handleCompletedStep stepId (.ok ps) = .inserted ps) ∧
    (∀ e, handleCompletedStep stepId (.ok ps) ≠ .propagatedError e) := by
  have hviol : ∀ p : ReportingProductId, productViolatesId stepId p = true ↔
      (p.name ≠ stepId.name ∨ p.kind ∉ stepId.productKinds ∨
        p.args ≠ stepId.args) := by
    intro p
    rw [productViolatesId]
    simp
    tauto
  refine ⟨?_, ?_, ?_, ?_⟩
  · intro ⟨p, hp, hmis⟩
    rw [handleCompletedStep,
      if_pos (List.any_eq_true.mpr ⟨p, hp, (hviol p).mpr hmis⟩)]
  · intro h
    rw [handleCompletedStep] at h
    split at h
    · next hany =>
      obtain ⟨p, hp, hv⟩ := List.any_eq_true.mp hany
      exact ⟨p, hp, (hviol p).mp hv⟩
    · exact absurd h (by simp)
  · intro hall
    rw [handleCompletedStep, if_neg]
    intro hany
    obtain ⟨p, hp, hv⟩ := List.any_eq_true.mp hany
    obtain ⟨h1, h2, h3⟩ := hall p hp
    rcases (hviol p).mp hv with h | h | h <;> exact h (by assumption)
  · intro e h
    rw [handleCompletedStep] at h
    split at h <;> simp at h

theorem executor_sanity_check_panics_on_mismatch_witness :
    handleCompletedStep
        { name := "X", productKinds := [.transactions], args := .voidArgs }
        (.ok [{ name := "Y", kind := .transactions, args := .voidArgs }])
      = .panicked ∧
    handleCompletedStep
        { name := "X", productKinds := [.transactions], args := .voidArgs }
        (.ok [{ name := "X", kind := .transactions, args := .voidArgs }])
      = .inserted [{ name := "X", kind := .transactions, args := .voidArgs }] := by
  constructor
  · exact (executor_sanity_check_panics_on_mismatch
      { name := "X", productKinds := [.transactions], args := .voidArgs }
      [{ name := "Y", kind := .transactions, args := .voidArgs }]).1
      ⟨{ name := "Y", kind := .transactions, args := .voidArgs }, by simp, by simp⟩
  · exact (executor_sanity_check_panics_on_mismatch
      { name := "X", productKinds := [.transactions], args := .voidArgs }
      [{ name := "X", kind := .transactions, args := .voidArgs }]).2.2.1
      (by simp)

-- -------------------------------------------------------------------------
-- Step addition and the default init_graph hook (types.rs 291-317,
-- mod.rs 119-139, calculator.rs 172-182 and 252-264), for C4

/-- The default ReportingStep::init_graph implementation (types.rs 299-305,
identically mod.rs 124-129): its body is empty, so it adds no dependency
edges; in particular it does not consult requires(). -/
def defaultInitGraph (steps : List RStep) (dependencies : List Dependency) :
    List Dependency :=
  dependencies

/-- The step-addition segments of solve_for (calculator.rs 172-177 for
targets, 252-259 for newly built steps), specialised to steps that do not
override init_graph: each step in turn is pushed onto the step list and its
init_graph hook (here the default) is invoked once, at that moment.  The
third component records the trace of init_graph invocations, in order. -/
def addAndInitSteps (steps0 : List RStep) (deps0 : List Dependency) :
    List RStep → List RStep × List Dependency × List ReportingStepId
  | [] => (steps0, deps0, [])
  | t :: rest =>
    let steps1 := steps0 ++ [t]
    let deps1 := defaultInitGraph steps1 deps0
    let r := addAndInitSteps steps1 deps1 rest
    (r.1, r.2.1, t.id :: r.2.2)

/-- C4 counterexample.  A step whose requires() is nonempty, run through the
engine's step-addition loop with the default init_graph hook: no dependency
edge is materialized, contradicting the claim that the default init_graph
materializes one edge per requires() entry. -/
def stepWithRequirement : RStep :=
  { name := "NeedsTrans", productKinds := [.generic], args := .voidArgs,
    requires := [{ name := "Trans", kind := .transactions, args := .voidArgs }] }

theorem default_init_graph_materializes_requires_counterexample :
    stepWithRequirement.requires ≠ [] ∧
    ¬ (∀ p ∈ stepWithRequirement.requires,
        { step := stepWithRequirement.id, dependency := p }
          ∈ (addAndInitSteps [] [] [stepWithRequirement]).2.1) := by
  constructor
  · simp [stepWithRequirement]
  · intro h
    have := h { name := "Trans", kind := .transactions, args := .voidArgs }
      (by simp [stepWithRequirement])
    simp [addAndInitSteps, defaultInitGraph] at this

/-- C4 (amended).  For every step added by the resolution engine that does not
override init_graph, init_graph is invoked exactly once, at the moment the
step is first added (the invocation trace lists each added step's id exactly
once, in addition order); but the default init_graph has an empty body, so it
adds no dependency edges and requires() is not consulted by it. -/
theorem init_graph_called_once_default_adds_nothing
    (steps0 : List RStep) (deps0 : List Dependency) (targets : List RStep) :
    (addAndInitSteps steps0 deps0 targets).2.2 = targets.map RStep.id ∧
    (addAndInitSteps steps0 deps0 targets).2.1 = deps0 ∧
    (addAndInitSteps steps0 deps0 targets).1 = steps0 ++ targets := by
  induction targets generalizing steps0 deps0 with
  | nil => simp [addAndInitSteps]
  | cons t rest ih =>
    obtain ⟨h1, h2, h3⟩ := ih (steps0 ++ [t]) deps0
    refine ⟨?_, ?_, ?_⟩
    · simp only [addAndInitSteps, defaultInitGraph, h1, List.map_cons]
    · simp only [addAndInitSteps, defaultInitGraph, h2]
    · simp only [addAndInitSteps, defaultInitGraph, h3]
      simp

-- -------------------------------------------------------------------------
-- Lookup factories with argument predicates (types.rs 51-110), for C5

/-- A lookup-factory registry entry as registered by
ReportingContext::register_lookup_fn (types.rs 77-86): keyed by
(name, product_kinds) and holding the (takes_args_fn, from_args_fn) pair. -/
structure LookupFactory where
  name : String
  productKinds : List ReportingProductKind
  takesArgs : StepArgs → Bool
  fromArgs : StepArgs → RStep

/-- Modelled from the spec: the resolution loop of the calculator revision
matching types.rs (absent from src/, which holds an older calculator.rs whose
registry ReportingStepLookupFn carries no predicate): for an unresolved
dependency edge, find a registered lookup factory whose name equals the
edge's product name and whose kind-set contains the edge's product kind, and
"if the predicate accepts the edge's args, instantiate the step" by invoking
the constructor from_args_fn on those args. -/
def resolveEdgeViaLookup (registry : List LookupFactory) (edge : Dependency) :
    Option RStep :=
  match registry.find? (fun f => f.name == edge.dependency.name
      && f.productKinds.contains edge.dependency.kind) with
  | some f =>
    if f.takesArgs edge.dependency.args then
      some (f.fromArgs edge.dependency.args)
    else
      none
  | none => none

/-- C5.  For an unresolved dependency edge whose name and kind match a
registered lookup factory, the factory's constructor is invoked to
instantiate a new step if and only if the factory's args-predicate accepts
the edge's args. -/
theorem lookup_constructor_invoked_iff_predicate_accepts
    (registry : List LookupFactory) (edge : Dependency) (f : LookupFactory)
    (hfind : registry.find? (fun f => f.name == edge.dependency.name
        && f.productKinds.contains edge.dependency.kind) = some f) :
    (f.takesArgs edge.dependency.args = true →
      resolveEdgeViaLookup registry edge
        = some (f.fromArgs edge.dependency.args)) ∧
    (f.takesArgs edge.dependency.args = false →
      resolveEdgeViaLookup registry edge = none) := by
  constructor
  · intro htrue
    rw [resolveEdgeViaLookup, hfind]
    simp [htrue]
  · intro hfalse
    rw [resolveEdgeViaLookup, hfind]
    simp [hfalse]

def exLookupFactory : LookupFactory :=
  { name := "CombineOrdinaryTransactions",
    productKinds := [.transactions],
    takesArgs := fun args => match args with | .dateArgs _ => true | _ => false,
    fromArgs := fun args =>
      { name := "CombineOrdinaryTransactions", productKinds := [.transactions],
        args := args, requires := [] } }

def exEdgeAccepted : Dependency :=
  { step := exStepA.id,
    dependency :=
      { name := "CombineOrdinaryTransactions",
        kind := .transactions, args := .dateArgs 10 } }

def exEdgeRejected : Dependency :=
  { step := exStepA.id,
    dependency :=
      { name := "CombineOrdinaryTransactions",
        kind := .transactions, args := .voidArgs } }

theorem lookup_constructor_invoked_iff_predicate_accepts_witness :
    resolveEdgeViaLookup [exLookupFactory] exEdgeAccepted
      = some (exLookupFactory.fromArgs (.dateArgs 10)) ∧
    resolveEdgeViaLookup [exLookupFactory] exEdgeRejected = none := by
  constructor
  · exact (lookup_constructor_invoked_iff_predicate_accepts
      [exLookupFactory] exEdgeAccepted exLookupFactory
      (by simp [List.find?, exLookupFactory, exEdgeAccepted])).1 (by decide)
  · exact (lookup_constructor_invoked_iff_predicate_accepts
      [exLookupFactory] exEdgeRejected exLookupFactory
      (by simp [List.find?, exLookupFactory, exEdgeRejected])).2 (by decide)

-- -------------------------------------------------------------------------
-- Calculated report model (src/src/reporting/dynamic_report.rs), for C7/C9

/-- LiteralRow (dynamic_report.rs 312-322). -/
structure LiteralRow where
  text : String
  quantity : List Int
  id : Option String
  visible : Bool
  autoHide : Bool
  link : Option String
  heading : Bool
  bordered : Bool
deriving DecidableEq, Repr

/-- DynamicReportEntry (dynamic_report.rs 155-162): Section fields are inlined
into the constructor (text, id, visible, auto_hide, entries); a
CalculatedRow's `calculate_fn` function pointer is represented by an index
into an environment of formulas supplied to calculate. -/
inductive DynamicReportEntry where
  | sectionEntry (text : String) (id : Option String) (visible : Bool)
      (autoHide : Bool) (entries : List DynamicReportEntry)
  | literalRow (row : LiteralRow)
  | calculatedRow (calculateFn : Nat)
  | spacer

/-- DynamicReport (dynamic_report.rs 29-35). -/
structure DynamicReport where
  title : String
  columns : List String
  entries : List DynamicReportEntry

/-- The type of `calculate_fn` environments: the function pointers of all
CalculatedRows, indexed by the number the row carries. -/
def CalcEnv : Type := Nat → DynamicReport → LiteralRow

mutual
/-- Section::calculate (dynamic_report.rs 222-248), which rewrites one entry
of a section against the frozen enclosing report: sub-sections are
recalculated recursively, CalculatedRows are replaced by the LiteralRow their
formula yields on the report, literal rows and spacers are unchanged. -/
def calcEntry (env : CalcEnv) (report : DynamicReport) :
    DynamicReportEntry → DynamicReportEntry
  | .sectionEntry text id visible autoHide entries =>
    .sectionEntry text id visible autoHide (calcEntryList env report entries)
  | .literalRow row => .literalRow row
  | .calculatedRow f => .literalRow (env f report)
  | .spacer => .spacer

/-- The entry loop of Section::calculate over a section's entry list. -/
def calcEntryList (env : CalcEnv) (report : DynamicReport) :
    List DynamicReportEntry → List DynamicReportEntry
  | [] => []
  | e :: rest => calcEntry env report e :: calcEntryList env report rest
end

/-- The entry loop of DynamicReport::calculate (dynamic_report.rs 69-95):
entries are rewritten in place left to right, so the formula of each
CalculatedRow (and each section recalculation) receives the report state with
all earlier entries already rewritten.  (For literal rows and spacers the
loop leaves the entry untouched; writing the identical entry back is the
same.) -/
def reportCalculateFrom (env : CalcEnv) (idx : Nat) (r : DynamicReport) :
    DynamicReport :=
  if h : idx < r.entries.length then
    reportCalculateFrom env (idx + 1)
      { r with entries := r.entries.set idx (calcEntry env r r.entries[idx]) }
  else
    r
termination_by r.entries.length - idx
decreasing_by simp [List.length_set]; omega

/-- DynamicReport::calculate (dynamic_report.rs 69-95). -/
def DynamicReport.calculate (env : CalcEnv) (r : DynamicReport) : DynamicReport :=
  reportCalculateFrom env 0 r

mutual
/-- Whether an entry is or contains a CalculatedRow. -/
def entryHasCalculatedRow : DynamicReportEntry → Bool
  | .sectionEntry _ _ _ _ entries => entriesHaveCalculatedRow entries
  | .literalRow _ => false
  | .calculatedRow _ => true
  | .spacer => false

/-- Whether any entry of a list is or contains a CalculatedRow. -/
def entriesHaveCalculatedRow : List DynamicReportEntry → Bool
  | [] => false
  | e :: rest => entryHasCalculatedRow e || entriesHaveCalculatedRow rest
end

theorem entriesHaveCalculatedRow_eq_false_iff :
    ∀ l : List DynamicReportEntry,
    entriesHaveCalculatedRow l = false ↔
      ∀ e ∈ l, entryHasCalculatedRow e = false := by
  intro l
  induction l with
  | nil => simp [entriesHaveCalculatedRow]
  | cons e rest ih =>
    rw [entriesHaveCalculatedRow]
    simp only [Bool.or_eq_false_iff, ih, List.mem_cons]
    constructor
    · rintro ⟨h1, h2⟩ x (hx | hx)
      · exact hx ▸ h1
      · exact h2 x hx
    · intro h
      exact ⟨h e (Or.inl rfl), fun x hx => h x (Or.inr hx)⟩

mutual
theorem calcEntry_no_calculated_row (env : CalcEnv) (report : DynamicReport) :
    ∀ e : DynamicReportEntry,
    entryHasCalculatedRow (calcEntry env report e) = false
  | .sectionEntry text id visible autoHide entries => by
    rw [calcEntry, entryHasCalculatedRow]
    exact calcEntryList_no_calculated_row env report entries
  | .literalRow row => by rw [calcEntry, entryHasCalculatedRow]
  | .calculatedRow f => by rw [calcEntry, entryHasCalculatedRow]
  | .spacer => by rw [calcEntry, entryHasCalculatedRow]

theorem calcEntryList_no_calculated_row (env : CalcEnv) (report : DynamicReport) :
    ∀ l : List DynamicReportEntry,
    entriesHaveCalculatedRow (calcEntryList env report l) = false
  | [] => by rw [calcEntryList, entriesHaveCalculatedRow]
  | e :: rest => by
    rw [calcEntryList, entriesHaveCalculatedRow,
      calcEntry_no_calculated_row env report e,
      calcEntryList_no_calculated_row env report rest]
    rfl
end

mutual
theorem calcEntry_of_literal (env : CalcEnv) (report : DynamicReport) :
    ∀ e : DynamicReportEntry, entryHasCalculatedRow e = false →
    calcEntry env report e = e
  | .sectionEntry text id visible autoHide entries => by
    intro h
    rw [entryHasCalculatedRow] at h
    rw [calcEntry, calcEntryList_of_literal env report entries h]
  | .literalRow row => by intro _; rw [calcEntry]
  | .calculatedRow f => by intro h; rw [entryHasCalculatedRow] at h; exact absurd h (by simp)
  | .spacer => by intro _; rw [calcEntry]

theorem calcEntryList_of_literal (env : CalcEnv) (report : DynamicReport) :
    ∀ l : List DynamicReportEntry, entriesHaveCalculatedRow l = false →
    calcEntryList env report l = l
  | [] => by intro _; rw [calcEntryList]
  | e :: rest => by
    intro h
    rw [entriesHaveCalculatedRow, Bool.or_eq_false_iff] at h
    rw [calcEntryList, calcEntry_of_literal env report e h.1,
      calcEntryList_of_literal env report rest h.2]
end

theorem list_set_self {α : Type} : ∀ (l : List α) (i : Nat) (h : i < l.length),
    l.set i l[i] = l := by
  intro l i h
  apply List.ext_getElem
  · simp [List.length_set]
  · intro n h1 h2
    rcases eq_or_ne i n with hin | hin
    · subst hin
      rw [List.getElem_set_self]
    · rw [List.getElem_set_ne hin]

theorem reportCalculateFrom_no_calculated_row (env : CalcEnv) :
    ∀ (fuel : Nat) (idx : Nat) (r : DynamicReport),
    r.entries.length - idx ≤ fuel →
    (∀ k (hk : k < r.entries.length), k < idx →
      entryHasCalculatedRow r.entries[k] = false) →
    entriesHaveCalculatedRow (reportCalculateFrom env idx r).entries = false := by
  intro fuel
  induction fuel with
  | zero =>
    intro idx r hfuel hpre
    rw [reportCalculateFrom]
    rw [dif_neg (by omega)]
    rw [entriesHaveCalculatedRow_eq_false_iff]
    intro e he
    obtain ⟨k, hk, hke⟩ := List.mem_iff_getElem.mp he
    exact hke ▸ hpre k hk (by omega)
  | succ fuel ih =>
    intro idx r hfuel hpre
    rw [reportCalculateFrom]
    split
    · next h =>
      refine ih (idx + 1) _ (by simp [List.length_set]; omega) ?_
      intro k hk hklt
      simp only [List.length_set] at hk
      rcases eq_or_ne idx k with hik | hik
      · subst hik
        simp only [List.getElem_set_self]
        exact calcEntry_no_calculated_row env r _
      · rw [List.getElem_set_ne hik]
        exact hpre k (by omega) (by omega)
    · next h =>
      rw [entriesHaveCalculatedRow_eq_false_iff]
      intro e he
      obtain ⟨k, hk, hke⟩ := List.mem_iff_getElem.mp he
      exact hke ▸ hpre k hk (by omega)

theorem reportCalculateFrom_of_literal (env : CalcEnv) :
    ∀ (fuel : Nat) (idx : Nat) (r : DynamicReport),
    r.entries.length - idx ≤ fuel →
    entriesHaveCalculatedRow r.entries = false →
    reportCalculateFrom env idx r = r := by
  intro fuel
  induction fuel with
  | zero =>
    intro idx r hfuel hlit
    rw [reportCalculateFrom, dif_neg (by omega)]
  | succ fuel ih =>
    intro idx r hfuel hlit
    rw [reportCalculateFrom]
    split
    · next h =>
      have hclean : entryHasCalculatedRow r.entries[idx] = false :=
        (entriesHaveCalculatedRow_eq_false_iff r.entries).mp hlit _
          (List.getElem_mem h)
      rw [calcEntry_of_literal env r _ hclean, list_set_self r.entries idx h]
      have : { r with entries := r.entries } = r := rfl
      rw [this]
      exact ih (idx + 1) r (by omega) hlit
    · rfl

/-- C7.  After one calculate() pass no CalculatedRow remains anywhere in the
tree; calling calculate() on an already-literal report (one containing no
CalculatedRow) changes nothing; hence calculate is idempotent. -/
theorem calculate_idempotent (env : CalcEnv) (r : DynamicReport) :
    entriesHaveCalculatedRow (DynamicReport.calculate env r).entries = false ∧
    (entriesHaveCalculatedRow r.entries = false →
      DynamicReport.calculate env r = r) ∧
    DynamicReport.calculate env (DynamicReport.calculate env r)
      = DynamicReport.calculate env r := by
  have h1 : entriesHaveCalculatedRow (DynamicReport.calculate env r).entries = false :=
    reportCalculateFrom_no_calculated_row env r.entries.length 0 r (by omega)
      (by intro k hk hneg; omega)
  have h2 : ∀ r0 : DynamicReport, entriesHaveCalculatedRow r0.entries = false →
      DynamicReport.calculate env r0 = r0 := fun r0 hl =>
    reportCalculateFrom_of_literal env r0.entries.length 0 r0 (by omega) hl
  exact ⟨h1, h2 r, h2 _ h1⟩

/-- A default LiteralRow, used for formula environments in examples. -/
def defaultRow : LiteralRow :=
  { text := "", quantity := [], id := none, visible := true,
    autoHide := false, link := none, heading := false, bordered := false }

def exSalesRow : LiteralRow :=
  { text := "Sales", quantity := [100], id := none, visible := true,
    autoHide := false, link := none, heading := false, bordered := false }

def exLiteralReport : DynamicReport :=
  { title := "Income Statement",
    columns := ["$"],
    entries := [
      .sectionEntry "Income" (some "income") true false
        [.literalRow exSalesRow],
      .spacer ] }

theorem calculate_idempotent_witness :
    DynamicReport.calculate (fun _ _ => defaultRow) exLiteralReport
      = exLiteralReport :=
  (calculate_idempotent (fun _ _ => defaultRow) exLiteralReport).2.1
    (by rw [exLiteralReport]
        simp [entriesHaveCalculatedRow, entryHasCalculatedRow])

-- -------------------------------------------------------------------------
-- Section::subtotal (src/src/reporting/dynamic_report.rs 289-309), for C9

/-- The accumulation `for (col_idx, v) in contribution.enumerate { subtotals[col_idx] += v }`
of Section::subtotal: add each contribution value into the accumulator at its
column index.  (When the contribution is longer than the accumulator the Rust
indexing panics; the embedding truncates instead — the theorems below carry a
length hypothesis excluding that case.) -/
def addQuantities (subtotals : List Int) (qs : List Int) : List Int :=
  List.zipWith (· + ·) subtotals qs ++ subtotals.drop qs.length

theorem addQuantities_nil_left (qs : List Int) : addQuantities [] qs = [] := by
  simp [addQuantities]

theorem addQuantities_nil_right (acc : List Int) : addQuantities acc [] = acc := by
  simp [addQuantities]

theorem addQuantities_cons (a : Int) (acc : List Int) (q : Int) (qs : List Int) :
    addQuantities (a :: acc) (q :: qs) = (a + q) :: addQuantities acc qs := by
  simp [addQuantities]

theorem addQuantities_length : ∀ (acc qs : List Int),
    (addQuantities acc qs).length = acc.length
  | [], qs => by rw [addQuantities_nil_left]
  | acc, [] => by rw [addQuantities_nil_right]
  | a :: acc, q :: qs => by
    rw [addQuantities_cons]
    simp [addQuantities_length acc qs]

theorem addQuantities_getD : ∀ (acc qs : List Int) (i : Nat), i < acc.length →
    (addQuantities acc qs).getD i 0 = acc.getD i 0 + qs.getD i 0
  | [], qs, i, hi => by simp at hi
  | acc, [], i, hi => by simp [addQuantities_nil_right]
  | a :: acc, q :: qs, 0, hi => by
    rw [addQuantities_cons]
    simp
  | a :: acc, q :: qs, i + 1, hi => by
    rw [addQuantities_cons]
    simp only [List.getD_cons_succ]
    exact addQuantities_getD acc qs i (by simpa using hi)

/-- Section::subtotal's entry loop (dynamic_report.rs 290-309): starting from
`vec![0; report.columns.len()]`, sub-Sections contribute their recursively
computed subtotal, LiteralRows contribute their quantity vector, and
CalculatedRows and Spacers contribute nothing. -/
def subtotalFold (ncols : Nat) (acc : List Int) :
    List DynamicReportEntry → List Int
  | [] => acc
  | .sectionEntry _ _ _ _ es :: rest =>
    subtotalFold ncols
      (addQuantities acc (subtotalFold ncols (List.replicate ncols 0) es)) rest
  | .literalRow row :: rest => subtotalFold ncols (addQuantities acc row.quantity) rest
  | .calculatedRow _ :: rest => subtotalFold ncols acc rest
  | .spacer :: rest => subtotalFold ncols acc rest

/-- Section::subtotal (dynamic_report.rs 290-309) for a section with the given
entries, in a report with ncols columns. -/
def sectionSubtotal (ncols : Nat) (entries : List DynamicReportEntry) : List Int :=
  subtotalFold ncols (List.replicate ncols 0) entries

mutual
/-- The literal descendant rows of an entry, in order (sections recurse,
spacers and CalculatedRows contribute none). -/
def entryRows : DynamicReportEntry → List LiteralRow
  | .sectionEntry _ _ _ _ es => entriesRows es
  | .literalRow row => [row]
  | .calculatedRow _ => []
  | .spacer => []

/-- The literal descendant rows of an entry list, in order. -/
def entriesRows : List DynamicReportEntry → List LiteralRow
  | [] => []
  | e :: rest => entryRows e ++ entriesRows rest
end

theorem subtotalFold_spec (ncols : Nat) :
    ∀ (l : List DynamicReportEntry) (acc : List Int), acc.length = ncols →
    (subtotalFold ncols acc l).length = ncols ∧
    ∀ i, i < ncols →
      (subtotalFold ncols acc l).getD i 0
        = acc.getD i 0 + ((entriesRows l).map (fun r => r.quantity.getD i 0)).sum
  | [], acc, hacc => by
    rw [subtotalFold]
    exact ⟨hacc, fun i _ => by simp [entriesRows]⟩
  | .sectionEntry t id v ah es :: rest, acc, hacc => by
    have hinner := subtotalFold_spec ncols es (List.replicate ncols 0) (by simp)
    have hacc2 : (addQuantities acc
        (subtotalFold ncols (List.replicate ncols 0) es)).length = ncols := by
      rw [addQuantities_length, hacc]
    have houter := subtotalFold_spec ncols rest _ hacc2
    rw [subtotalFold]
    refine ⟨houter.1, fun i hi => ?_⟩
    rw [houter.2 i hi]
    rw [addQuantities_getD _ _ i (by omega)]
    rw [hinner.2 i hi]
    simp only [entriesRows, entryRows, List.map_append, List.sum_append]
    have : (List.replicate ncols (0 : Int)).getD i 0 = 0 := by
      rcases Nat.lt_or_ge i ncols with h | h
      · rw [List.getD_eq_getElem _ _ (by simpa using h), List.getElem_replicate]
      · omega
    rw [this]
    ring
  | .literalRow row :: rest, acc, hacc => by
    have hacc2 : (addQuantities acc row.quantity).length = ncols := by
      rw [addQuantities_length, hacc]
    have houter := subtotalFold_spec ncols rest _ hacc2
    rw [subtotalFold]
    refine ⟨houter.1, fun i hi => ?_⟩
    rw [houter.2 i hi, addQuantities_getD _ _ i (by omega)]
    simp only [entriesRows, entryRows, List.map_append, List.sum_append,
      List.map_cons, List.sum_cons, List.map_nil, List.sum_nil]
    ring
  | .calculatedRow f :: rest, acc, hacc => by
    have houter := subtotalFold_spec ncols rest acc hacc
    rw [subtotalFold]
    refine ⟨houter.1, fun i hi => ?_⟩
    rw [houter.2 i hi]
    simp [entriesRows, entryRows]
  | .spacer :: rest, acc, hacc => by
    have houter := subtotalFold_spec ncols rest acc hacc
    rw [subtotalFold]
    refine ⟨houter.1, fun i hi => ?_⟩
    rw [houter.2 i hi]
    simp [entriesRows, entryRows]

/-- C9.  Section::subtotal returns one value per report column, equal to the
sum over all literal descendant rows of that column's quantity; nested
Sections recurse, Spacers and pending CalculatedRows contribute nothing.  The
length hypothesis excludes rows with more quantities than report columns,
where the Rust indexing panics. -/
theorem section_subtotal_per_column (ncols : Nat)
    (entries : List DynamicReportEntry)
    (hwf : ∀ r ∈ entriesRows entries, r.quantity.length ≤ ncols) :
    (sectionSubtotal ncols entries).length = ncols ∧
    ∀ i, i < ncols →
      (sectionSubtotal ncols entries).getD i 0
        = ((entriesRows entries).map (fun r => r.quantity.getD i 0)).sum := by
  have h := subtotalFold_spec ncols entries (List.replicate ncols 0) (by simp)
  rw [sectionSubtotal]
  refine ⟨h.1, fun i hi => ?_⟩
  rw [h.2 i hi]
  have : (List.replicate ncols (0 : Int)).getD i 0 = 0 := by
    rw [List.getD_eq_getElem _ _ (by simpa using hi), List.getElem_replicate]
  rw [this]
  ring

def exRow (q : Int) : LiteralRow :=
  { text := "", quantity := [q], id := none, visible := true,
    autoHide := false, link := none, heading := false, bordered := false }

/-- The section of the subtotal-correctness example: rows [10, -3] and a
nested section with rows [5]. -/
def exSubtotalEntries : List DynamicReportEntry :=
  [ .literalRow (exRow 10),
    .literalRow (exRow (-3)),
    .sectionEntry "nested" none true false [.literalRow (exRow 5)] ]

theorem section_subtotal_per_column_witness :
    (sectionSubtotal 1 exSubtotalEntries).getD 0 0 = 12 := by
  have h := (section_subtotal_per_column 1 exSubtotalEntries (by decide)).2 0
    (by omega)
  rw [h]
  decide

-- -------------------------------------------------------------------------
-- Auto-hide (src/libdrcr/src/reporting/dynamic_report.rs 192-227, 397-426,
-- 494-499), for C8

/-- LiteralRow::can_auto_hide (libdrcr dynamic_report.rs 494-499): auto_hide
is enabled and all quantities are zero. -/
def LiteralRow.canAutoHide (r : LiteralRow) : Bool :=
  r.autoHide && r.quantity.all (fun q => q == 0)

/-- The libdrcr DynamicReportEntry (dynamic_report.rs 240-245): Section (with
its fields text, id, visible, auto_hide, entries inlined), LiteralRow,
Spacer — no CalculatedRow exists in the literal tree. -/
inductive LEntry where
  | sectionEntry (text : String) (id : Option String) (visible : Bool)
      (autoHide : Bool) (entries : List LEntry)
  | literalRow (row : LiteralRow)
  | spacer

mutual
/-- The per-child eligibility closure of Section::can_auto_hide_self
(libdrcr dynamic_report.rs 419-426): sections by can_auto_hide_self, rows by
can_auto_hide, spacers always. -/
def entryCanAutoHide : LEntry → Bool
  | .sectionEntry _ _ _ ah es => ah && entriesAllCanAutoHide es
  | .literalRow row => row.canAutoHide
  | .spacer => true

/-- The `self.entries.iter().all(...)` of Section::can_auto_hide_self. -/
def entriesAllCanAutoHide : List LEntry → Bool
  | [] => true
  | e :: rest => entryCanAutoHide e && entriesAllCanAutoHide rest
end

/-- Section::auto_hide_children (libdrcr dynamic_report.rs 398-417, the same
retain_mut body as DynamicReport::auto_hide, 202-221): each child section is
first recursively auto-hidden in place, then dropped iff the mutated section
can_auto_hide_self; a literal row is dropped iff can_auto_hide; spacers are
kept. -/
def autoHideChildren : List LEntry → List LEntry
  | [] => []
  | .sectionEntry t id v ah es :: rest =>
    if ah && entriesAllCanAutoHide (autoHideChildren es) then
      autoHideChildren rest
    else
      .sectionEntry t id v ah (autoHideChildren es) :: autoHideChildren rest
  | .literalRow row :: rest =>
    if row.canAutoHide then autoHideChildren rest
    else .literalRow row :: autoHideChildren rest
  | .spacer :: rest => .spacer :: autoHideChildren rest

/-- The literal report of libdrcr (dynamic_report.rs 186-190). -/
structure LReport where
  title : String
  columns : List String
  entries : List LEntry

/-- DynamicReport::auto_hide (libdrcr dynamic_report.rs 202-221). -/
def LReport.autoHide (r : LReport) : LReport :=
  { r with entries := autoHideChildren r.entries }

/-- The spec's wording of row auto-hide eligibility: flag set and every
column value zero. -/
def rowHideableSpec (r : LiteralRow) : Prop :=
  r.autoHide = true ∧ ∀ q ∈ r.quantity, q = 0

mutual
/-- The spec's wording of per-entry auto-hide eligibility: sub-sections that
are themselves eligible, all-zero auto-hiding rows, spacers. -/
def eligibleSpec : LEntry → Prop
  | .sectionEntry _ _ _ ah es => ah = true ∧ allEligibleSpec es
  | .literalRow row => rowHideableSpec row
  | .spacer => True

/-- All entries of a list are eligible under the spec's wording. -/
def allEligibleSpec : List LEntry → Prop
  | [] => True
  | e :: rest => eligibleSpec e ∧ allEligibleSpec rest
end

theorem canAutoHide_iff_rowHideableSpec (r : LiteralRow) :
    r.canAutoHide = true ↔ rowHideableSpec r := by
  rw [LiteralRow.canAutoHide, rowHideableSpec]
  simp [List.all_eq_true]

mutual
theorem entryCanAutoHide_iff_eligibleSpec :
    ∀ e : LEntry, entryCanAutoHide e = true ↔ eligibleSpec e
  | .sectionEntry t id v ah es => by
    rw [entryCanAutoHide, eligibleSpec]
    rw [Bool.and_eq_true]
    rw [entriesAllCanAutoHide_iff_allEligibleSpec es]
  | .literalRow row => by
    rw [entryCanAutoHide, eligibleSpec]
    exact canAutoHide_iff_rowHideableSpec row
  | .spacer => by
    rw [entryCanAutoHide, eligibleSpec]
    simp

theorem entriesAllCanAutoHide_iff_allEligibleSpec :
    ∀ l : List LEntry, entriesAllCanAutoHide l = true ↔ allEligibleSpec l
  | [] => by
    rw [entriesAllCanAutoHide, allEligibleSpec]
    simp
  | e :: rest => by
    rw [entriesAllCanAutoHide, allEligibleSpec, Bool.and_eq_true,
      entryCanAutoHide_iff_eligibleSpec e,
      entriesAllCanAutoHide_iff_allEligibleSpec rest]
end

theorem allEligibleSpec_iff_forall :
    ∀ l : List LEntry, allEligibleSpec l ↔ ∀ e ∈ l, eligibleSpec e := by
  intro l
  induction l with
  | nil => rw [allEligibleSpec]; simp
  | cons e rest ih =>
    rw [allEligibleSpec, ih]
    constructor
    · rintro ⟨h1, h2⟩ x hx
      rcases List.mem_cons.mp hx with h | h
      · exact h ▸ h1
      · exact h2 x h
    · intro h
      exact ⟨h e (List.mem_cons_self _ _), fun x hx => h x (List.mem_cons_of_mem _ hx)⟩

theorem autoHide_row_mem (row : LiteralRow) :
    ∀ l : List LEntry,
    LEntry.literalRow row ∈ autoHideChildren l ↔
      LEntry.literalRow row ∈ l ∧ ¬ rowHideableSpec row
  | [] => by simp [autoHideChildren]
  | .sectionEntry t id v ah es :: rest => by
    rw [autoHideChildren]
    split
    · rw [autoHide_row_mem row rest]
      simp
    · rw [List.mem_cons, autoHide_row_mem row rest]
      simp
  | .literalRow row0 :: rest => by
    rw [autoHideChildren]
    by_cases h0 : row0.canAutoHide = true
    · rw [if_pos h0, autoHide_row_mem row rest]
      have hspec := (canAutoHide_iff_rowHideableSpec row0).mp h0
      simp only [List.mem_cons, LEntry.literalRow.injEq]
      constructor
      · rintro ⟨hm, hs⟩; exact ⟨Or.inr hm, hs⟩
      · rintro ⟨hor, hs⟩
        rcases hor with heq | hm
        · exact absurd (by rw [heq]; exact hspec) hs
        · exact ⟨hm, hs⟩
    · rw [if_neg h0, List.mem_cons, autoHide_row_mem row rest, List.mem_cons]
      have hspec : ¬ rowHideableSpec row0 :=
        fun hs => h0 ((canAutoHide_iff_rowHideableSpec row0).mpr hs)
      simp only [LEntry.literalRow.injEq]
      constructor
      · rintro (heq | ⟨hm, hs⟩)
        · exact ⟨Or.inl heq, by rw [heq]; exact hspec⟩
        · exact ⟨Or.inr hm, hs⟩
      · rintro ⟨heq | hm, hs⟩
        · exact Or.inl heq
        · exact Or.inr ⟨hm, hs⟩
  | .spacer :: rest => by
    rw [autoHideChildren, List.mem_cons, autoHide_row_mem row rest, List.mem_cons]
    simp

theorem autoHide_spacer_mem :
    ∀ l : List LEntry,
    LEntry.spacer ∈ autoHideChildren l ↔ LEntry.spacer ∈ l
  | [] => by simp [autoHideChildren]
  | .sectionEntry t id v ah es :: rest => by
    rw [autoHideChildren]
    split
    · rw [autoHide_spacer_mem rest]
      simp
    · rw [List.mem_cons, autoHide_spacer_mem rest]
      simp
  | .literalRow row0 :: rest => by
    rw [autoHideChildren]
    split
    · rw [autoHide_spacer_mem rest]
      simp
    · rw [List.mem_cons, autoHide_spacer_mem rest]
      simp
  | .spacer :: rest => by
    rw [autoHideChildren, List.mem_cons, autoHide_spacer_mem rest, List.mem_cons]

theorem autoHide_section_mem (t : String) (id : Option String) (v ah : Bool)
    (es1 : List LEntry) :
    ∀ l : List LEntry,
    LEntry.sectionEntry t id v ah es1 ∈ autoHideChildren l ↔
      ∃ es0, LEntry.sectionEntry t id v ah es0 ∈ l ∧
        es1 = autoHideChildren es0 ∧
        ¬ (ah = true ∧ ∀ e ∈ es1, eligibleSpec e)
  | [] => by simp [autoHideChildren]
  | .sectionEntry t0 id0 v0 ah0 es0h :: rest => by
    rw [autoHideChildren]
    split
    · next hhide =>
      rw [Bool.and_eq_true, entriesAllCanAutoHide_iff_allEligibleSpec,
        allEligibleSpec_iff_forall] at hhide
      rw [autoHide_section_mem t id v ah es1 rest]
      constructor
      · rintro ⟨es0, hm, he, hn⟩
        exact ⟨es0, List.mem_cons_of_mem _ hm, he, hn⟩
      · rintro ⟨es0, hm, he, hn⟩
        rcases List.mem_cons.mp hm with heq | hm2
        · exfalso
          rw [LEntry.sectionEntry.injEq] at heq
          obtain ⟨ht, hid, hv, hah, hes⟩ := heq
          apply hn
          subst hah
          refine ⟨hhide.1, ?_⟩
          rw [he, hes]
          exact hhide.2
        · exact ⟨es0, hm2, he, hn⟩
    · next hhide =>
      rw [Bool.and_eq_true, entriesAllCanAutoHide_iff_allEligibleSpec,
        allEligibleSpec_iff_forall] at hhide
      rw [List.mem_cons, autoHide_section_mem t id v ah es1 rest]
      constructor
      · rintro (heq | ⟨es0, hm, he, hn⟩)
        · rw [LEntry.sectionEntry.injEq] at heq
          obtain ⟨ht, hid, hv, hah, hes⟩ := heq
          refine ⟨es0h, ?_, hes, ?_⟩
          · rw [ht, hid, hv, hah]
            exact List.mem_cons_self _ _
          · intro ⟨hah1, hall⟩
            apply hhide
            rw [← hah, hah1]
            refine ⟨rfl, ?_⟩
            rw [hes] at hall
            exact hall
        · exact ⟨es0, List.mem_cons_of_mem _ hm, he, hn⟩
      · rintro ⟨es0, hm, he, hn⟩
        rcases List.mem_cons.mp hm with heq | hm2
        · left
          rw [LEntry.sectionEntry.injEq] at heq
          obtain ⟨ht, hid, hv, hah, hes⟩ := heq
          rw [LEntry.sectionEntry.injEq]
          exact ⟨ht, hid, hv, hah, by rw [he, hes]⟩
        · right
          exact ⟨es0, hm2, he, hn⟩
  | .literalRow row0 :: rest => by
    rw [autoHideChildren]
    split
    · rw [autoHide_section_mem t id v ah es1 rest]
      constructor
      · rintro ⟨es0, hm, he, hn⟩
        exact ⟨es0, List.mem_cons_of_mem _ hm, he, hn⟩
      · rintro ⟨es0, hm, he, hn⟩
        rcases List.mem_cons.mp hm with heq | hm2
        · exact absurd heq (by simp)
        · exact ⟨es0, hm2, he, hn⟩
    · rw [List.mem_cons, autoHide_section_mem t id v ah es1 rest]
      constructor
      · rintro (heq | ⟨es0, hm, he, hn⟩)
        · exact absurd heq (by simp)
        · exact ⟨es0, List.mem_cons_of_mem _ hm, he, hn⟩
      · rintro ⟨es0, hm, he, hn⟩
        rcases List.mem_cons.mp hm with heq | hm2
        · exact absurd heq (by simp)
        · exact Or.inr ⟨es0, hm2, he, hn⟩
  | .spacer :: rest => by
    rw [autoHideChildren, List.mem_cons, autoHide_section_mem t id v ah es1 rest]
    constructor
    · rintro (heq | ⟨es0, hm, he, hn⟩)
      · exact absurd heq (by simp)
      · exact ⟨es0, List.mem_cons_of_mem _ hm, he, hn⟩
    · rintro ⟨es0, hm, he, hn⟩
      rcases List.mem_cons.mp hm with heq | hm2
      · exact absurd heq (by simp)
      · exact Or.inr ⟨es0, hm2, he, hn⟩

/-- C8.  After auto_hide, a LiteralRow remains iff it was present and it is
not the case that its auto-hide flag is set with all column values zero; a
Section (with given fields and post-pass children es1) remains iff some
original section with the same fields had children es0 with
es1 = auto-hide(es0), and it is not the case that its flag is set with every
remaining child individually eligible (eligible sub-sections, all-zero
auto-hiding rows, spacers); a Spacer is never removed directly. -/
theorem auto_hide_removal_characterization (l : List LEntry) :
    (∀ row : LiteralRow,
      LEntry.literalRow row ∈ autoHideChildren l ↔
        LEntry.literalRow row ∈ l ∧
          ¬ (row.autoHide = true ∧ ∀ q ∈ row.quantity, q = 0)) ∧
    (∀ (t : String) (id : Option String) (v ah : Bool) (es1 : List LEntry),
      LEntry.sectionEntry t id v ah es1 ∈ autoHideChildren l ↔
        ∃ es0, LEntry.sectionEntry t id v ah es0 ∈ l ∧
          es1 = autoHideChildren es0 ∧
          ¬ (ah = true ∧ ∀ e ∈ es1, eligibleSpec e)) ∧
    (LEntry.spacer ∈ autoHideChildren l ↔ LEntry.spacer ∈ l) := by
  refine ⟨fun row => ?_, fun t id v ah es1 => autoHide_section_mem t id v ah es1 l,
    autoHide_spacer_mem l⟩
  rw [autoHide_row_mem row l, rowHideableSpec]

def c8ZeroRow : LiteralRow :=
  { text := "zero", quantity := [0], id := none, visible := true,
    autoHide := true, link := none, heading := false, bordered := false }

def c8SevenRow : LiteralRow :=
  { text := "seven", quantity := [7], id := none, visible := true,
    autoHide := true, link := none, heading := false, bordered := false }

def c8Children : List LEntry :=
  [.literalRow c8ZeroRow, .literalRow c8SevenRow]

def c8List : List LEntry :=
  [.sectionEntry "S" none true true c8Children]

theorem auto_hide_removal_characterization_witness :
    LEntry.literalRow c8ZeroRow ∉ autoHideChildren c8Children ∧
    LEntry.sectionEntry "S" none true true (autoHideChildren c8Children)
      ∈ autoHideChildren c8List ∧
    autoHideChildren c8Children = [LEntry.literalRow c8SevenRow] := by
  have hev : autoHideChildren c8Children = [LEntry.literalRow c8SevenRow] := by
    simp [c8Children, autoHideChildren, LiteralRow.canAutoHide, c8ZeroRow, c8SevenRow]
  refine ⟨?_, ?_, hev⟩
  · intro hmem
    have h := ((auto_hide_removal_characterization c8Children).1 c8ZeroRow).mp hmem
    exact h.2 ⟨rfl, by decide⟩
  · refine ((auto_hide_removal_characterization c8List).2.1 "S" none true true
      (autoHideChildren c8Children)).mpr ⟨c8Children, ?_, rfl, ?_⟩
    · exact List.mem_cons_self _ _
    · intro ⟨_, hall⟩
      have h7 := hall (LEntry.literalRow c8SevenRow)
        (by rw [hev]; exact List.mem_cons_self _ _)
      rw [eligibleSpec, rowHideableSpec] at h7
      have := h7.2 7 (by simp [c8SevenRow])
      exact absurd this (by decide)

-- -------------------------------------------------------------------------
-- has_step_or_can_build and the dynamic builders (calculator.rs 81-126,
-- builders.rs), for C3

/-- HasStepOrCanBuild (calculator.rs 81-86). -/
inductive HasStepOrCanBuild where
  | hasStep (s : RStep)
  | canLookup (lookupFn : StepArgs → RStep)
  | canBuild (b : BuilderKind)
  | none

/-- A lookup registry entry as consulted by has_step_or_can_build
(calculator.rs 102-109): keyed by (name, kind-set), holding the step
constructor ReportingStepLookupFn. -/
structure LookupEntry where
  name : String
  productKinds : List ReportingProductKind
  lookupFn : StepArgs → RStep

/-- dependencies_for_step (calculator.rs 63-65). -/
def dependenciesForStep (dependencies : List Dependency)
    (step : ReportingStepId) : List Dependency :=
  dependencies.filter (fun d => d.step == step)

/-
  The four dynamic builders of builders.rs are registered in the order of
  register_dynamic_builders (builders.rs 40-47): GenerateBalances,
  UpdateBalancesBetween, UpdateBalancesAt, BalancesAtToBalancesBetween.
  has_step_or_can_build tries them in that order.  The builders' can_build
  functions recursively call has_step_or_can_build; the Rust recursion is
  unbounded (it would overflow the stack on adversarial graphs), so the
  embedding carries a fuel parameter, conservatively answering false/None at
  exhaustion.  HashMap key iteration order for the lookup registry is
  unspecified in Rust; the embedding scans the registry list in order.
-/
mutual
/-- has_step_or_can_build (calculator.rs 88-126): an existing step producing
the product, else a registered lookup function for (name, kind), else the
first dynamic builder whose can_build accepts. -/
def hasStepOrCanBuild (fuel : Nat) (product : ReportingProductId)
    (steps : List RStep) (dependencies : List Dependency)
    (lookup : List LookupEntry) : HasStepOrCanBuild :=
  match steps.find? (fun s => s.id.name == product.name
      && s.id.args == product.args
      && s.id.productKinds.contains product.kind) with
  | some s => .hasStep s
  | _ =>
    match lookup.find? (fun e => e.name == product.name
        && e.productKinds.contains product.kind) with
    | some entry => .canLookup entry.lookupFn
    | _ =>
      if canBuildGenerateBalances fuel product.name product.kind product.args
          steps dependencies lookup then
        .canBuild .generateBalances
      else if canBuildUpdateBalancesBetween fuel product.name product.kind
          product.args steps dependencies lookup then
        .canBuild .updateBalancesBetween
      else if canBuildUpdateBalancesAt fuel product.name product.kind
          product.args steps dependencies lookup then
        .canBuild .updateBalancesAt
      else if canBuildBalancesAtToBalancesBetween fuel product.name product.kind
          product.args steps dependencies lookup then
        .canBuild .balancesAtToBalancesBetween
      else
        .none
termination_by (fuel, 1)

/-- GenerateBalances::can_build (builders.rs 234-299): Transactions →
BalancesAt, provided the transactions step (tried with the given args, then
with VoidArgs) has no dependencies. -/
def canBuildGenerateBalances (fuel : Nat) (name : String)
    (kind : ReportingProductKind) (args : StepArgs) (steps : List RStep)
    (dependencies : List Dependency) (lookup : List LookupEntry) : Bool :=
  match fuel with
  | 0 => false
  | fuel' + 1 =>
    if kind == ReportingProductKind.balancesAt then
      let attempt1 : Bool :=
        match hasStepOrCanBuild fuel'
            { name := name, kind := .transactions, args := args }
            steps dependencies lookup with
        | .hasStep step => (dependenciesForStep dependencies step.id).length == 0
        | .canLookup f => (f args).requires.length == 0
        | _ => false
      if attempt1 then true
      else
        match hasStepOrCanBuild fuel'
            { name := name, kind := .transactions, args := .voidArgs }
            steps dependencies lookup with
        | .hasStep step => (dependenciesForStep dependencies step.id).length == 0
        | .canLookup f => (f args).requires.length == 0
        | _ => false
    else false
termination_by (fuel, 0)

/-- UpdateBalancesBetween::can_build (builders.rs 673-701): a Transactions
step of the same name whose single dependency is a BalancesBetween. -/
def canBuildUpdateBalancesBetween (fuel : Nat) (name : String)
    (kind : ReportingProductKind) (args : StepArgs) (steps : List RStep)
    (dependencies : List Dependency) (lookup : List LookupEntry) : Bool :=
  if kind == ReportingProductKind.balancesBetween then
    match steps.find? (fun s => s.id.name == name
        && s.id.productKinds.contains .transactions) with
    | some step =>
      match dependenciesForStep dependencies step.id with
      | [d] => d.dependency.kind == ReportingProductKind.balancesBetween
      | _ => false
    | _ => false
  else false

/-- UpdateBalancesAt::can_build (builders.rs 436-493): a Transactions step of
the same name whose single dependency is a BalancesAt, or is a
BalancesBetween with a BalancesAt also obtainable at the requested date. -/
def canBuildUpdateBalancesAt (fuel : Nat) (name : String)
    (kind : ReportingProductKind) (args : StepArgs) (steps : List RStep)
    (dependencies : List Dependency) (lookup : List LookupEntry) : Bool :=
  match fuel with
  | 0 => false
  | fuel' + 1 =>
    match args with
    | .dateArgs date =>
      if kind == ReportingProductKind.balancesAt then
        match steps.find? (fun s => s.id.name == name
            && s.id.productKinds.contains .transactions) with
        | some step =>
          match dependenciesForStep dependencies step.id with
          | [d] =>
            if d.dependency.kind == ReportingProductKind.balancesAt then true
            else if d.dependency.kind == ReportingProductKind.balancesBetween then
              match hasStepOrCanBuild fuel'
                  { name := d.dependency.name, kind := .balancesAt,
                    args := .dateArgs date }
                  steps dependencies lookup with
              | .hasStep _ => true
              | .canLookup _ => true
              | .canBuild _ => true
              | .none => false
            else false
          | _ => false
        | _ => false
      else false
    | _ => false
termination_by (fuel, 0)

/-- BalancesAtToBalancesBetween::can_build (builders.rs 67-104): for a
requested BalancesBetween with date-range args, check that BalancesAt is
obtainable at the range's start date. -/
def canBuildBalancesAtToBalancesBetween (fuel : Nat) (name : String)
    (kind : ReportingProductKind) (args : StepArgs) (steps : List RStep)
    (dependencies : List Dependency) (lookup : List LookupEntry) : Bool :=
  match fuel with
  | 0 => false
  | fuel' + 1 =>
    if kind == ReportingProductKind.balancesBetween then
      match args with
      | .dateStartDateEndArgs dateStart dateEnd =>
        match hasStepOrCanBuild fuel'
            { name := name, kind := .balancesAt, args := .dateArgs dateStart }
            steps dependencies lookup with
        | .hasStep _ => true
        | .canLookup _ => true
        | .canBuild _ => true
        | .none => false
      | _ => false
    else false
termination_by (fuel, 0)
end

/-- BalancesAtToBalancesBetween::requires (builders.rs 140-158): BalancesAt
at the day before the start date (the opening balance is the closing balance
of the preceding day) and at the end date. -/
def balancesAtToBalancesBetweenRequires (stepName : String)
    (dateStart dateEnd : Int) : List ReportingProductId :=
  [ { name := stepName, kind := .balancesAt, args := .dateArgs (dateStart - 1) },
    { name := stepName, kind := .balancesAt, args := .dateArgs dateEnd } ]

/-- A step producing point-in-time balances for "Cash" at date 0 only. -/
def c3BalAtStep : RStep :=
  { name := "Cash", productKinds := [.balancesAt], args := .dateArgs 0,
    requires := [] }

/-- C3 counterexample.  With only a BalancesAt step at date 0 in the graph
(and no lookup functions), BalancesAtToBalancesBetween::can_build accepts the
requested interval [0, 5] — BalancesAt is obtainable at the start date 0 —
even though point-in-time balances are NOT obtainable at the other endpoint
(date 5) via any step, lookup function or builder.  can_build checks
obtainability only at the start date. -/
theorem balances_at_to_balances_between_can_build_counterexample :
    canBuildBalancesAtToBalancesBetween 4 "Cash" .balancesBetween
      (.dateStartDateEndArgs 0 5) [c3BalAtStep] [] [] = true ∧
    hasStepOrCanBuild 3
      { name := "Cash", kind := .balancesAt, args := .dateArgs 5 }
      [c3BalAtStep] [] [] = .none := by
  constructor
  · simp [canBuildBalancesAtToBalancesBetween, hasStepOrCanBuild, c3BalAtStep,
      RStep.id]
  · simp [hasStepOrCanBuild, canBuildGenerateBalances,
      canBuildUpdateBalancesBetween, canBuildUpdateBalancesAt,
      canBuildBalancesAtToBalancesBetween, c3BalAtStep, RStep.id]

/-- C3 (amended).  BalancesAtToBalancesBetween::can_build returns true iff
the requested kind is BalancesBetween, the args are a date range, and
point-in-time balances (BalancesAt) are obtainable — via an existing step, a
lookup function or another builder — at the range's start date; obtainability
at the end date (or at the preceding day used by requires()) is not
checked. -/
theorem balances_at_to_balances_between_can_build_iff
    (fuel : Nat) (name : String) (kind : ReportingProductKind)
    (args : StepArgs) (steps : List RStep) (dependencies : List Dependency)
    (lookup : List LookupEntry) :
    canBuildBalancesAtToBalancesBetween (fuel + 1) name kind args steps
        dependencies lookup = true ↔
      (kind = .balancesBetween ∧ ∃ dateStart dateEnd,
        args = .dateStartDateEndArgs dateStart dateEnd ∧
        hasStepOrCanBuild fuel
            { name := name, kind := .balancesAt, args := .dateArgs dateStart }
            steps dependencies lookup ≠ .none) := by
  constructor
  · intro h
    cases args with
    | dateStartDateEndArgs s e =>
      rw [canBuildBalancesAtToBalancesBetween.eq_2] at h
      split at h
      · next hkcond =>
        refine ⟨by simpa using hkcond, s, e, rfl, ?_⟩
        intro hn
        rw [hn] at h
        simp at h
      · next => simp at h
    | voidArgs =>
      rw [canBuildBalancesAtToBalancesBetween.eq_3 _ _ _ _ _ _ _
        (by intro a b hab; cases hab)] at h
      simp at h
    | dateArgs d =>
      rw [canBuildBalancesAtToBalancesBetween.eq_3 _ _ _ _ _ _ _
        (by intro a b hab; cases hab)] at h
      simp at h
    | multipleDateArgs dlist =>
      rw [canBuildBalancesAtToBalancesBetween.eq_3 _ _ _ _ _ _ _
        (by intro a b hab; cases hab)] at h
      simp at h
    | multipleDateStartDateEndArgs dlist =>
      rw [canBuildBalancesAtToBalancesBetween.eq_3 _ _ _ _ _ _ _
        (by intro a b hab; cases hab)] at h
      simp at h
  · rintro ⟨hkind, ds, de, heq, hne⟩
    subst heq
    rw [canBuildBalancesAtToBalancesBetween.eq_2]
    rw [if_pos (by simp [hkind])]
    rcases hX : hasStepOrCanBuild fuel
        { name := name, kind := .balancesAt, args := .dateArgs ds }
        steps dependencies lookup with st | f | b | _
    · rfl
    · rfl
    · rfl
    · exact absurd hX hne
